import Mathlib

/-!
# Solvemind: a shallow embedding of `solvemind.c`

The C program is a Mastermind oracle and solver.  This file embeds its core
(`setCodeToZero`, `nextCode`, `getCodeCount`, `calcResponse`, `codeFitsTurn`,
`codeFitsTurnStack`, `countPossibleCodes`, `evalGuess`, `calcBestGuess`), its
text encoding (`readCode`, `printCodeLetters`), its stack operations
(`pushTurn`, `popTurn`) and the part of `main` that changes the history, as
Lean functions, and proves properties of them.

Conventions of the embedding:

* `char colors[CODE_LENGTH]` is a function `Fin CODE_LENGTH → Nat`; a symbol is
  the numeric value of the `char`.  The programme only ever stores values in
  `[0, COLOR_COUNT)` there.
* The loop of `nextCode` indexes `code->colors[i]` without comparing `i` to
  `CODE_LENGTH`.  The memory that follows the array is therefore an input of
  `nextCode`: the list `past` of the `char` values found after
  `colors[CODE_LENGTH - 1]`, up to the end of the memory the process may
  access.  `nextCode` reports the final value of `i`, the content of that
  memory afterwards, and whether the scan ran off it.
* A function that runs an enumeration loop `do { ... } while (nextCode(&code));`
  has an `Outcome`: it either returns, or one of its calls of `nextCode`
  accesses memory outside the array.  Such an access is undefined behaviour in
  C: the source does not determine what the programme does from there on, and
  the embedding gives the function no defined result.  The outcome
  `Outcome.outOfRange` only records the values the variables of the loop held
  when the call was made.
* C `int`s that hold counts are `Int`; `unsigned` values are `Nat`, reduced
  modulo `UINT_RANGE = 2 ^ 32` where the source can wrap (the key computed in
  `calcBestGuess`); the counters of the loops never exceed `getCodeCount`.
* C `int`s used as truth values (`codeFitsTurn`, `codeFitsTurnStack`, the
  return value of `nextCode`) are `Bool`.
* The linked stack `TurnNode *` is a `List Turn` whose head is the top node and
  whose tail is `node->prev`; `NULL` is `[]`.
* `malloc` returns a buffer of unknown content, given by a parameter `junk`.
-/

namespace Solvemind

/-! ## Code and Response -/

/-- The macro `CODE_LENGTH`. -/
abbrev CODE_LENGTH : Nat := 4

/-- The macro `COLOR_COUNT`. -/
abbrev COLOR_COUNT : Nat := 8

/-- The struct `Code`: `char colors[CODE_LENGTH]`. -/
structure Code where
  colors : Fin CODE_LENGTH → Nat
deriving DecidableEq

/-- The struct `Response`: `int fit; int misplaced;`. -/
structure Response where
  fit : Int
  misplaced : Int
deriving DecidableEq

/-- The data-model invariant of a code: every symbol lies in `[0, COLOR_COUNT)`. -/
def Code.valid (c : Code) : Prop := ∀ i : Fin CODE_LENGTH, c.colors i < COLOR_COUNT

instance (c : Code) : Decidable c.valid := by
  unfold Code.valid; infer_instance

/-- The function `setCodeToZero`: every position is set to 0. -/
def setCodeToZero (code : Code) : Code :=
  (List.finRange CODE_LENGTH).foldl
    (fun c i => { colors := Function.update c.colors i 0 }) code

/-- The memory from `code->colors[0]` on: the `char`s of the array, then the
`char`s `past` that follow the array, up to the end of the memory the process
may access.  A `char` is given by its value (which is negative for a byte above
127 where `char` is signed). -/
def codeMemory (code : Code) (past : List Int) : List Int :=
  List.ofFn (fun i => (code.colors i : Int)) ++ past

/-- The code stored in the first `CODE_LENGTH` `char`s of a memory. -/
def codeOfMemory (memory : List Int) : Code :=
  { colors := fun i => (memory.getD i 0).toNat }

/-- The `while` loop of `nextCode`:
`while (code->colors[i] >= COLOR_COUNT - 1) { code->colors[i] = 0; i++; }`,
on the memory from `code->colors[i]` on, `i` being the local variable.  The
source does not compare `i` to `CODE_LENGTH`, and neither does this function:
it reads and resets one `char` after the other, in the array and in the memory
after it alike, until it finds a `char` below `COLOR_COUNT - 1`.  It returns the
memory as the loop leaves it, the final value of `i`, and whether the loop
condition read beyond the last `char` the process may access. -/
def nextCodeLoop : List Int → Nat → List Int × Nat × Bool
  | [], i => ([], i, true)
  | b :: rest, i =>
    if b ≥ (COLOR_COUNT : Int) - 1 then
      let r := nextCodeLoop rest (i + 1)
      (0 :: r.1, r.2.1, r.2.2)
    else
      (b :: rest, i, false)

/-- What a call `nextCode(&code)` leaves behind: the returned truth value, the
code now stored in `*code`, the final value of the local variable `i` (the
last index at which the loop condition read `code->colors[i]`), the content of
the memory after the array, and whether that read lay beyond the accessible
memory (the process is then stopped at the read, and `ret` is not returned). -/
structure NextCodeResult where
  ret : Bool
  code : Code
  i : Nat
  past : List Int
  fault : Bool
deriving DecidableEq

/-- The function `nextCode`, called on a code that is followed in memory by
`past`. -/
def nextCode (code : Code) (past : List Int) : NextCodeResult :=
  -- increment cascades up to fitting spot
  let r := nextCodeLoop (codeMemory code past) 0
  let memory := r.1
  let i := r.2.1
  -- overflow occurred
  if i ≥ CODE_LENGTH then
    { ret := false, code := codeOfMemory memory, i := i, past := memory.drop CODE_LENGTH,
      fault := r.2.2 }
  else
    let memory := memory.set i (memory.getD i 0 + 1)
    { ret := true, code := codeOfMemory memory, i := i, past := memory.drop CODE_LENGTH,
      fault := r.2.2 }

/-- The function `getCodeCount`: `COLOR_COUNT` multiplied `CODE_LENGTH` times. -/
def getCodeCount : Nat :=
  (List.range CODE_LENGTH).foldl (fun result _ => result * COLOR_COUNT) 1

/-- The statement `count[(size_t) s]++` on an `int count[COLOR_COUNT]`.  An index
outside the array (which no valid code produces) leaves the array as it is. -/
def incrCount (count : Fin COLOR_COUNT → Int) (s : Nat) : Fin COLOR_COUNT → Int :=
  if h : s < COLOR_COUNT then Function.update count ⟨s, h⟩ (count ⟨s, h⟩ + 1) else count

/-- The function `calcResponse`. -/
def calcResponse (input hidden : Code) : Response :=
  -- set to 0
  let zero : Fin COLOR_COUNT → Int := fun _ => 0
  -- count colors
  let counts := (List.finRange CODE_LENGTH).foldl
    (fun (cs : (Fin COLOR_COUNT → Int) × (Fin COLOR_COUNT → Int)) i =>
      (incrCount cs.1 (input.colors i), incrCount cs.2 (hidden.colors i)))
    (zero, zero)
  -- find how many matching colors are in input
  let matchingColors : Int := (List.finRange COLOR_COUNT).foldl
    (fun m i =>
      let countInput := counts.1 i
      let countHidden := counts.2 i
      m + (if countInput < countHidden then countInput else countHidden))
    0
  -- find "fit"
  let fit : Int := (List.finRange CODE_LENGTH).foldl
    (fun f i => if input.colors i = hidden.colors i then f + 1 else f) 0
  { fit := fit, misplaced := matchingColors - fit }

/-! ## Termination of the enumeration -/

theorem codeMemory_eq (c : Code) (past : List Int) :
    codeMemory c past =
      (c.colors 0 : Int) :: (c.colors 1 : Int) :: (c.colors 2 : Int) :: (c.colors 3 : Int) :: past := by
  rfl

/-- The loop of `nextCode` only moves `i` forward. -/
theorem nextCodeLoop_le (memory : List Int) (i : Nat) :
    i ≤ (nextCodeLoop memory i).2.1 := by
  induction memory generalizing i with
  | nil => simp [nextCodeLoop]
  | cons b rest ih =>
    unfold nextCodeLoop
    split_ifs
    · exact Nat.le_trans (Nat.le_succ i) (ih (i + 1))
    · exact Nat.le_refl i

theorem nextCodeLoop_cons_ge (b : Nat) (rest : List Int) (i : Nat) (h : ¬ b < 7) :
    nextCodeLoop ((b : Int) :: rest) i =
      (0 :: (nextCodeLoop rest (i + 1)).1, (nextCodeLoop rest (i + 1)).2.1,
        (nextCodeLoop rest (i + 1)).2.2) := by
  have : (b : Int) ≥ (COLOR_COUNT : Int) - 1 := by simp only [COLOR_COUNT]; push_cast; omega
  rw [nextCodeLoop, if_pos this]

theorem nextCodeLoop_cons_lt (b : Nat) (rest : List Int) (i : Nat) (h : b < 7) :
    nextCodeLoop ((b : Int) :: rest) i = ((b : Int) :: rest, i, false) := by
  have : ¬ (b : Int) ≥ (COLOR_COUNT : Int) - 1 := by simp only [COLOR_COUNT]; push_cast; omega
  rw [nextCodeLoop, if_neg this]

theorem codeOfMemory_cons (a b c d : Nat) (rest : List Int) :
    codeOfMemory ((a : Int) :: (b : Int) :: (c : Int) :: (d : Int) :: rest) =
      { colors := ![a, b, c, d] } := by
  have hall : ∀ k : Fin CODE_LENGTH, k = 0 ∨ k = 1 ∨ k = 2 ∨ k = 3 := by decide
  have h3 : ((3 : Fin CODE_LENGTH) : Nat) = 3 := rfl
  unfold codeOfMemory
  congr 1
  funext j
  rcases hall j with rfl | rfl | rfl | rfl
  · simp
  · simp
  · simp
  · simp [h3]

theorem update_eq_vec (f : Fin CODE_LENGTH → Nat) (a b c d : Nat)
    (h0 : f 0 = a) (h1 : f 1 = b) (h2 : f 2 = c) (h3 : f 3 = d) : f = ![a, b, c, d] := by
  have hall : ∀ k : Fin CODE_LENGTH, k = 0 ∨ k = 1 ∨ k = 2 ∨ k = 3 := by decide
  funext j
  rcases hall j with rfl | rfl | rfl | rfl
  · exact h0
  · exact h1
  · exact h2
  · exact h3

/-- Closed form of `nextCode`: the first position holding a symbol below
`COLOR_COUNT - 1` is incremented and all positions before it are reset; when
the array holds no such position, the loop goes on in the memory after the
array and the function returns 0. -/
theorem nextCode_eq (c : Code) (past : List Int) :
    nextCode c past =
      if c.colors 0 < 7 then
        ⟨true, ⟨Function.update c.colors 0 (c.colors 0 + 1)⟩, 0, past, false⟩
      else if c.colors 1 < 7 then
        ⟨true, ⟨Function.update (Function.update c.colors 0 0) 1 (c.colors 1 + 1)⟩, 1, past, false⟩
      else if c.colors 2 < 7 then
        ⟨true, ⟨Function.update (Function.update (Function.update c.colors 0 0) 1 0) 2
          (c.colors 2 + 1)⟩, 2, past, false⟩
      else if c.colors 3 < 7 then
        ⟨true, ⟨Function.update (Function.update (Function.update
          (Function.update c.colors 0 0) 1 0) 2 0) 3 (c.colors 3 + 1)⟩, 3, past, false⟩
      else
        ⟨false, ⟨Function.update (Function.update (Function.update
          (Function.update c.colors 0 0) 1 0) 2 0) 3 0⟩, (nextCodeLoop past 4).2.1,
          (nextCodeLoop past 4).1, (nextCodeLoop past 4).2.2⟩ := by
  have hge : (nextCodeLoop past 4).2.1 ≥ CODE_LENGTH := nextCodeLoop_le past 4
  unfold nextCode
  rw [codeMemory_eq]
  by_cases h0 : c.colors 0 < 7
  · rw [nextCodeLoop_cons_lt _ _ _ h0, if_pos h0]
    have e : ((c.colors 0 : Int) :: (c.colors 1 : Int) :: (c.colors 2 : Int) ::
        (c.colors 3 : Int) :: past).set 0
          (((c.colors 0 : Int) :: (c.colors 1 : Int) :: (c.colors 2 : Int) ::
            (c.colors 3 : Int) :: past).getD 0 0 + 1) =
        ((c.colors 0 + 1 : Nat) : Int) :: (c.colors 1 : Int) :: (c.colors 2 : Int) ::
          (c.colors 3 : Int) :: past := by simp
    simp only [ge_iff_le, Nat.not_le.mpr (by decide : 0 < CODE_LENGTH), if_false]
    rw [e, codeOfMemory_cons]
    congr 1
    · congr 1
      exact (update_eq_vec _ _ _ _ _ (by simp) (by simp) (by simp) (by simp)).symm
  · rw [nextCodeLoop_cons_ge _ _ _ h0, if_neg h0]
    by_cases h1 : c.colors 1 < 7
    · rw [nextCodeLoop_cons_lt _ _ _ h1, if_pos h1]
      have e : ((0 : Int) :: (c.colors 1 : Int) :: (c.colors 2 : Int) ::
          (c.colors 3 : Int) :: past).set (0 + 1)
            (((0 : Int) :: (c.colors 1 : Int) :: (c.colors 2 : Int) ::
              (c.colors 3 : Int) :: past).getD (0 + 1) 0 + 1) =
          ((0 : Nat) : Int) :: ((c.colors 1 + 1 : Nat) : Int) :: (c.colors 2 : Int) ::
            (c.colors 3 : Int) :: past := by simp
      simp only [ge_iff_le, Nat.not_le.mpr (by decide : 0 + 1 < CODE_LENGTH), if_false]
      rw [e, codeOfMemory_cons]
      congr 1
      · congr 1
        exact (update_eq_vec _ _ _ _ _ (by simp) (by simp) (by simp) (by simp)).symm
    · rw [nextCodeLoop_cons_ge _ _ _ h1, if_neg h1]
      by_cases h2 : c.colors 2 < 7
      · rw [nextCodeLoop_cons_lt _ _ _ h2, if_pos h2]
        have e : ((0 : Int) :: (0 : Int) :: (c.colors 2 : Int) ::
            (c.colors 3 : Int) :: past).set (0 + 1 + 1)
              (((0 : Int) :: (0 : Int) :: (c.colors 2 : Int) ::
                (c.colors 3 : Int) :: past).getD (0 + 1 + 1) 0 + 1) =
            ((0 : Nat) : Int) :: ((0 : Nat) : Int) :: ((c.colors 2 + 1 : Nat) : Int) ::
              (c.colors 3 : Int) :: past := by simp
        simp only [ge_iff_le, Nat.not_le.mpr (by decide : 0 + 1 + 1 < CODE_LENGTH), if_false]
        rw [e, codeOfMemory_cons]
        congr 1
        · congr 1
          exact (update_eq_vec _ _ _ _ _ (by simp) (by simp) (by simp) (by simp)).symm
      · rw [nextCodeLoop_cons_ge _ _ _ h2, if_neg h2]
        by_cases h3 : c.colors 3 < 7
        · rw [nextCodeLoop_cons_lt _ _ _ h3, if_pos h3]
          have e : ((0 : Int) :: (0 : Int) :: (0 : Int) ::
              (c.colors 3 : Int) :: past).set (0 + 1 + 1 + 1)
                (((0 : Int) :: (0 : Int) :: (0 : Int) ::
                  (c.colors 3 : Int) :: past).getD (0 + 1 + 1 + 1) 0 + 1) =
              ((0 : Nat) : Int) :: ((0 : Nat) : Int) :: ((0 : Nat) : Int) ::
                ((c.colors 3 + 1 : Nat) : Int) :: past := by simp
          simp only [ge_iff_le, Nat.not_le.mpr (by decide : 0 + 1 + 1 + 1 < CODE_LENGTH),
            if_false]
          rw [e, codeOfMemory_cons]
          congr 1
          · congr 1
            exact (update_eq_vec _ _ _ _ _ (by simp) (by simp) (by simp) (by simp)).symm
        · rw [nextCodeLoop_cons_ge _ _ _ h3, if_neg h3]
          have e : ((0 : Int) :: (0 : Int) :: (0 : Int) :: (0 : Int) ::
              (nextCodeLoop past (0 + 1 + 1 + 1 + 1)).1) =
              ((0 : Nat) : Int) :: ((0 : Nat) : Int) :: ((0 : Nat) : Int) :: ((0 : Nat) : Int) ::
                (nextCodeLoop past 4).1 := rfl
          simp only [ge_iff_le]
          rw [if_pos hge, e, codeOfMemory_cons]
          congr 1
          · congr 1
            exact (update_eq_vec _ _ _ _ _ (by simp) (by simp) (by simp) (by simp)).symm
/-- Termination measure of the enumeration: the distance to the last code,
reading every symbol as a base-`COLOR_COUNT` digit capped at `COLOR_COUNT - 1`. -/
def enumMeasure (c : Code) : Nat :=
  COLOR_COUNT ^ CODE_LENGTH - 1 -
    ∑ i : Fin CODE_LENGTH, min (c.colors i) (COLOR_COUNT - 1) * COLOR_COUNT ^ (i : Nat)

theorem enumMeasure_eq (c : Code) :
    enumMeasure c = 4095 - (min (c.colors 0) 7 + min (c.colors 1) 7 * 8 +
      min (c.colors 2) 7 * 64 + min (c.colors 3) 7 * 512) := by
  have h3 : ((3 : Fin 4) : Nat) = 3 := rfl
  simp only [enumMeasure, Fin.sum_univ_four, COLOR_COUNT, CODE_LENGTH, h3]
  norm_num


/-- Each successful `nextCode` moves strictly closer to the last code. -/
theorem nextCode_enumMeasure_lt (c : Code) (past : List Int)
    (h : (nextCode c past).ret = true) :
    enumMeasure (nextCode c past).code < enumMeasure c := by
  rw [nextCode_eq] at h ⊢
  split_ifs at h ⊢ with h0 h1 h2 h3 <;>
    simp only [enumMeasure_eq, Function.update_apply, Fin.reduceEq, ↓reduceIte] <;>
    omega

/-! ## Turns and the stack of turns -/

/-- The struct `Turn`. -/
structure Turn where
  code : Code
  response : Response
deriving DecidableEq

/-- The function `codeFitsTurn`. -/
def codeFitsTurn (code : Code) (turn : Turn) : Bool :=
  let resp := calcResponse code turn.code
  (resp.fit == turn.response.fit) && (resp.misplaced == turn.response.misplaced)

/-- The function `codeFitsTurnStack`: the walk from the top node along `prev`. -/
def codeFitsTurnStack (code : Code) : List Turn → Bool
  | [] => true
  | turn :: prev => if !codeFitsTurn code turn then false else codeFitsTurnStack code prev

/-- How a function that runs an enumeration loop ends.  `returned r`: the
function returns `r`.  `outOfRange s`: a call of `nextCode` made by the
function, or by a function it calls, accessed memory outside the array
`code->colors`; what the programme does from then on is not determined by the
source (the function has no defined result; it is said to be lost), and `s`
holds the values of the variables of the loop when that call was made. -/
inductive Outcome (σ ρ : Type) where
  | returned (r : ρ)
  | outOfRange (s : σ)

/-- The loop `do { body } while (nextCode(&code));` over a loop state `σ`,
together with what follows it.  The body runs on the current code; it yields
the new state, or `none` when a function it calls has no defined result.  Then
`nextCode` is called on the code, which is followed in memory by `past`.  When
that call keeps its accesses inside the array (`i < CODE_LENGTH` at its end),
its return value decides whether the loop goes round again; when the loop is
left, `after` is what the function goes on to do with the final state.  When
the call accesses memory outside the array, or the body has no defined result, the
function has no defined result and `lost` says what is recorded of the state. -/
def doWhileNextCode {σ α : Type} (body : σ → Code → Option σ) (after : σ → α)
    (lost : σ → α) (s : σ) (code : Code) (past : List Int) : α :=
  match body s code with
  | none => lost s
  | some s1 =>
    if (nextCode code past).i < CODE_LENGTH then
      if h : (nextCode code past).ret = true then
        doWhileNextCode body after lost s1 (nextCode code past).code (nextCode code past).past
      else
        after s1
    else
      lost s1
termination_by enumMeasure code
decreasing_by exact nextCode_enumMeasure_lt code past h

/-- A local `Code` before its first assignment; every use below overwrites it
with `setCodeToZero` first. -/
def localCode : Code := { colors := fun _ => 0 }

/-- Body of the loop of `countPossibleCodes`, on the loop state `(count, i)`;
`possibleCodeBools[i]` is read from the `char` buffer `possibleCodeBools`. -/
def countPossibleCodesStep (turnStack : List Turn) (possibleCodeBools : List Nat)
    (st : Nat × Nat) (code : Code) : Nat × Nat :=
  let count := st.1
  let i := st.2
  (if possibleCodeBools.getD i 0 ≠ 0 && codeFitsTurnStack code turnStack
    then count + 1 else count,
   i + 1)

/-- The function `countPossibleCodes`; `past` is the memory after its local
`code`. -/
def countPossibleCodes (turnStack : List Turn) (possibleCodeBools : List Nat)
    (past : List Int) : Outcome (Nat × Nat) Nat :=
  doWhileNextCode
    (fun st code => some (countPossibleCodesStep turnStack possibleCodeBools st code))
    (fun st => Outcome.returned st.1)
    (fun st => Outcome.outOfRange st)
    (0, 0) (setCodeToZero localCode) past

/-- The statement `if (count > result) result = count;` of `evalGuess`: the new
value of `result`. -/
def evalGuessUpdate (result count : Nat) : Nat :=
  -- search for maximum
  if count > result then count else result

/-- Body of the loop of `evalGuess`, on the loop state `(result, i)`; the
temporary node `newNode` is the turn `(guess, resp)` on top of `turnStack`.
There is no new state when the call of `countPossibleCodes` has no defined result. -/
def evalGuessStep (guess : Code) (turnStack : List Turn) (possibleCodeBools : List Nat)
    (past : List Int) (st : Nat × Nat) (possibleSecret : Code) : Option (Nat × Nat) :=
  let result := st.1
  let i := st.2
  if possibleCodeBools.getD i 0 ≠ 0 then
    let resp := calcResponse guess possibleSecret
    -- make temp node on stack
    let newNode : List Turn := { code := guess, response := resp } :: turnStack
    match countPossibleCodes newNode possibleCodeBools past with
    | Outcome.returned count => some (evalGuessUpdate result count, i + 1)
    | Outcome.outOfRange _ => none
  else
    some (result, i + 1)

/-- The function `evalGuess`; `past` is the memory after a local `Code` of the
enumeration loops (of `possibleSecret` here, of `code` in
`countPossibleCodes`). -/
def evalGuess (guess : Code) (turnStack : List Turn) (possibleCodeBools : List Nat)
    (past : List Int) : Outcome (Nat × Nat) Nat :=
  doWhileNextCode (evalGuessStep guess turnStack possibleCodeBools past)
    (fun st => Outcome.returned st.1)
    (fun st => Outcome.outOfRange st)
    (0, 0) (setCodeToZero localCode) past

/-- The number of values of a 32-bit `unsigned`, `2 ^ 32`: arithmetic on an
`unsigned` is arithmetic modulo this number. -/
abbrev UINT_RANGE : Nat := 4294967296

/-- The constant `UINT_MAX` of a 32-bit `unsigned`. -/
abbrev UINT_MAX : Nat := 4294967295

/-- A block of `size` bytes returned by `malloc`: its content is not
initialised, `junk` tells what each byte happens to hold. -/
def malloc (size : Nat) (junk : Nat → Nat) : List Nat :=
  (List.range size).map junk

/-- Body of the first loop of `calcBestGuess` ("create cache of all possible
codes"), on the loop state `(possibleCodeBools, codeIndex)`. -/
def calcBestGuessMaskStep (turnStack : List Turn) (st : List Nat × Nat) (code : Code) :
    List Nat × Nat :=
  let possibleCodeBools := st.1
  let codeIndex := st.2
  (possibleCodeBools.set codeIndex (if codeFitsTurnStack code turnStack then 1 else 0),
   codeIndex + 1)

/-- First loop of `calcBestGuess` ("create cache of all possible codes") taken
on its own: it yields the buffer `possibleCodeBools` and the final value of
`codeIndex`. -/
def calcBestGuessMask (turnStack : List Turn) (junk : Nat → Nat) (past : List Int) :
    Outcome (List Nat × Nat) (List Nat × Nat) :=
  doWhileNextCode (fun st code => some (calcBestGuessMaskStep turnStack st code))
    (fun st => Outcome.returned st)
    (fun st => Outcome.outOfRange st)
    (malloc getCodeCount junk, 0) (setCodeToZero localCode) past

/-- The statements of the body of the second loop of `calcBestGuess` that follow
the call of `evalGuess`, on the loop state
`(bestGuessEval, bestGuess, codeIndex)` and the value `eval` the call returned.
The `unsigned` variable `eval` is computed modulo `UINT_RANGE`. -/
def calcBestGuessUpdate (possibleCodeBools : List Nat) (st : Nat × Code × Nat) (code : Code)
    (eval : Nat) : Nat × Code × Nat :=
  let bestGuessEval := st.1
  let bestGuess := st.2.1
  let codeIndex := st.2.2
  -- give 0.5 points for being a possible code (normalized by times 2 to be integer)
  let eval := eval * 2 % UINT_RANGE
  let eval := (eval + UINT_RANGE - possibleCodeBools.getD codeIndex 0 % UINT_RANGE) % UINT_RANGE
  -- find (arg) min
  if eval < bestGuessEval then (eval, code, codeIndex + 1)
  else (bestGuessEval, bestGuess, codeIndex + 1)

/-- Body of the second loop of `calcBestGuess`, on the loop state
`(bestGuessEval, bestGuess, codeIndex)`: the call of `evalGuess`, then
`calcBestGuessUpdate`.  There is no new state when the call of `evalGuess` has
no defined result. -/
def calcBestGuessStep (turnStack : List Turn) (possibleCodeBools : List Nat) (past : List Int)
    (st : Nat × Code × Nat) (code : Code) : Option (Nat × Code × Nat) :=
  match evalGuess code turnStack possibleCodeBools past with
  | Outcome.returned eval => some (calcBestGuessUpdate possibleCodeBools st code eval)
  | Outcome.outOfRange _ => none

/-- The statement `return bestGuess;` on the final state of the second loop. -/
def calcBestGuessReturn (st : Nat × Code × Nat) : Outcome (List Nat × Nat) Code :=
  Outcome.returned st.2.1

/-- Second loop of `calcBestGuess` and its `return`, on the buffer
`possibleCodeBools` the first loop has filled.  Without a result, the outcome
records the buffer and the value of `codeIndex`. -/
def calcBestGuessSearch (turnStack : List Turn) (possibleCodeBools : List Nat)
    (past : List Int) : Outcome (List Nat × Nat) Code :=
  doWhileNextCode (calcBestGuessStep turnStack possibleCodeBools past) calcBestGuessReturn
    (fun st => Outcome.outOfRange (possibleCodeBools, st.2.2))
    (UINT_MAX, setCodeToZero localCode, 0) (setCodeToZero localCode) past

/-- The function `calcBestGuess`: the first loop builds the mask, the second
loop searches on it, and `bestGuess` is returned.  Without a result, the
outcome records the buffer `possibleCodeBools` and the value of `codeIndex`. -/
def calcBestGuess (turnStack : List Turn) (junk : Nat → Nat) (past : List Int) :
    Outcome (List Nat × Nat) Code :=
  doWhileNextCode (fun st code => some (calcBestGuessMaskStep turnStack st code))
    (fun st => calcBestGuessSearch turnStack st.1 past)
    (fun st => Outcome.outOfRange st)
    (malloc getCodeCount junk, 0) (setCodeToZero localCode) past

/-- The sequence of codes an enumeration loop visits:
`setCodeToZero(&code); do { visit(code); } while (nextCode(&code));`,
the loop shape of `countPossibleCodes`, `evalGuess`, `calcBestGuess` and of
the `:pos` command, with a body that records the code. -/
def visitedCodes (past : List Int) : Outcome (List Code) (List Code) :=
  doWhileNextCode (fun (visited : List Code) code => some (visited ++ [code]))
    (fun visited => Outcome.returned visited)
    (fun visited => Outcome.outOfRange visited)
    [] (setCodeToZero localCode) past

/-! ## Text encoding, the stack operations and the session -/

/-- The character constant `'a'`. -/
abbrev CHAR_a : Nat := 97

/-- The function `printCodeLetters`: the characters it prints, one per position,
`code.colors[i] + 'a'` passed to `printf("%c", ...)`, which prints the value as
an `unsigned char`. -/
def printCodeLetters (code : Code) : List Nat :=
  (List.finRange CODE_LENGTH).map (fun i => (code.colors i + CHAR_a) % 256)

/-- The `for` loop of `readCode` over the positions still to be read.  A
character is its numeric value as a byte (a byte above 127, negative where
`char` is signed, fails the range test either way); `str[i]` past the last
character of the string reads its terminator 0.  The loop returns at the first
character outside
`['a', 'a' + COLOR_COUNT)`, leaving the positions before it written. -/
def readCodeLoop (str : List Nat) : List (Fin CODE_LENGTH) → Code → Bool × Code
  | [], code => (true, code)
  | i :: rest, code =>
    if str.getD i 0 < CHAR_a ∨ str.getD i 0 ≥ CHAR_a + COLOR_COUNT then
      (false, code)
    else
      readCodeLoop str rest { colors := Function.update code.colors i (str.getD i 0 - CHAR_a) }

/-- The function `readCode`: the returned truth value and the content of
`*code` afterwards. -/
def readCode (str : List Nat) (len : Nat) (code : Code) : Bool × Code :=
  if len ≠ CODE_LENGTH then (false, code)
  -- disable read code when alphabet is not enough
  else if COLOR_COUNT > 26 then (false, code)
  else readCodeLoop str (List.finRange CODE_LENGTH) code

/-- The function `pushTurn`: a new node holding `turn`, whose `prev` is the old
top, becomes the top (the allocation of the node is taken to succeed). -/
def pushTurn (turnStack : List Turn) (turn : Turn) : List Turn :=
  turn :: turnStack

/-- The function `popTurn`: the top node is freed and its `prev` becomes the
top.  On the empty stack the source dereferences `NULL`; there is no result. -/
def popTurn : List Turn → Option (List Turn)
  | [] => none
  | _ :: prev => some prev

/-- The `while` loop of `nextCode` once more, recording in `accesses` the index
of every access to `code->colors[i]`: the read made by the loop condition (the
read beyond the accessible memory included) and, when the condition holds, the
write `code->colors[i] = 0` of the loop body. -/
def nextCodeLoopAccesses : List Int → Nat → List Nat → List Nat
  | [], i, accesses => accesses ++ [i]
  | b :: rest, i, accesses =>
    if b ≥ (COLOR_COUNT : Int) - 1 then
      nextCodeLoopAccesses rest (i + 1) (accesses ++ [i, i])
    else
      accesses ++ [i]

/-- The indices `i` of all accesses `code->colors[i]` made by `nextCode(&code)`,
in the order they are made: those of the loop, then the read and the write of
`code->colors[i]++` when the function does not return 0. -/
def nextCodeAccesses (code : Code) (past : List Int) : List Nat :=
  let accesses := nextCodeLoopAccesses (codeMemory code past) 0 []
  let i := (nextCodeLoop (codeMemory code past) 0).2.1
  if i ≥ CODE_LENGTH then accesses else accesses ++ [i, i]

/-- A command of the session of `main` that touches the history: a code typed
as a guess, or `:pop`. -/
inductive Command where
  | guess (code : Code)
  | pop

/-- One round of the loop of `main` on the history, for the commands `:pop`
and a guess: `:pop` pops when the stack is not empty; a guess is answered with
`calcResponse(code, secret)` and pushed unless `fit == CODE_LENGTH`. -/
def sessionStep (secret : Code) (turnStack : List Turn) : Command → List Turn
  | Command.pop =>
    match popTurn turnStack with
    | some prev => prev
    | none => turnStack
  | Command.guess code =>
    let resp := calcResponse code secret
    if resp.fit = CODE_LENGTH then turnStack
    else pushTurn turnStack { code := code, response := resp }

/-- The history after a sequence of commands, from the empty history. -/
def session (secret : Code) (commands : List Command) : List Turn :=
  commands.foldl (sessionStep secret) []

/-! ## Vocabulary of the specification -/

/-- Number of positions at which two codes hold the same symbol. -/
def positionMatches (a b : Code) : Nat :=
  (Finset.univ.filter (fun i : Fin CODE_LENGTH => a.colors i = b.colors i)).card

/-- Number of occurrences of the symbol `s` in a code. -/
def Code.count (c : Code) (s : Nat) : Nat :=
  (Finset.univ.filter (fun i : Fin CODE_LENGTH => c.colors i = s)).card

/-- Cardinality of the multiset intersection of two codes: the sum over the
symbols `s` in `[0, COLOR_COUNT)` of the smaller of the two occurrence counts. -/
def colorMatches (a b : Code) : Nat :=
  ∑ s in Finset.range COLOR_COUNT, min (a.count s) (b.count s)

/-- Ordinal of a code: its symbols read as a little-endian base-`COLOR_COUNT`
number. -/
def ord (c : Code) : Nat :=
  ∑ i : Fin CODE_LENGTH, c.colors i * COLOR_COUNT ^ (i : Nat)

/-- The code reached from the all-zero code by `k` calls of `nextCode`: the code
the enumeration loops visit in their iteration number `k` (counted from 0).
The code a call of `nextCode` leaves does not depend on the memory after the
array (`nextCode_code_past`), which is taken empty here. -/
def nthCode (k : Nat) : Code :=
  (fun c => (nextCode c []).code)^[k] (setCodeToZero localCode)

/-- The candidate mask of a history: entry `k` is 1 when the code number `k` is
consistent with the history and 0 otherwise. -/
def candidateMask (H : List Turn) : List Nat :=
  (List.range getCodeCount).map (fun k => if codeFitsTurnStack (nthCode k) H then 1 else 0)

/-- What every round of the session preserves: the secret fits the history and
no recorded turn is a win. -/
def sessionInvariant (secret : Code) (H : List Turn) : Prop :=
  codeFitsTurnStack secret H = true ∧ ∀ t ∈ H, t.response.fit ≠ CODE_LENGTH

/-- The commands of a session that leaves a single candidate: the guesses
"baaa", "abaa", "aaba" and "aaab". -/
def singleCandidateCommands : List Command :=
  [Command.guess { colors := ![1, 0, 0, 0] }, Command.guess { colors := ![0, 1, 0, 0] },
   Command.guess { colors := ![0, 0, 1, 0] }, Command.guess { colors := ![0, 0, 0, 1] }]

/-- The history of the session with the secret "aaaa" and the commands
`singleCandidateCommands`: each guess is answered (3, 0) and recorded. -/
def singleCandidateHistory : List Turn :=
  [{ code := { colors := ![0, 0, 0, 1] }, response := ⟨3, 0⟩ },
   { code := { colors := ![0, 0, 1, 0] }, response := ⟨3, 0⟩ },
   { code := { colors := ![0, 1, 0, 0] }, response := ⟨3, 0⟩ },
   { code := { colors := ![1, 0, 0, 0] }, response := ⟨3, 0⟩ }]

/-- The number of entries of a mask that are set. -/
def maskTrueCount (mask : List Nat) : Nat :=
  ((Finset.range getCodeCount).filter (fun k => mask.getD k 0 ≠ 0)).card

/-- Lexicographic order on symbol sequences, position 0 compared first. -/
def lexLt (a b : Code) : Prop :=
  ∃ i : Fin CODE_LENGTH, a.colors i < b.colors i ∧ ∀ j : Fin CODE_LENGTH, j < i →
    a.colors j = b.colors j

instance (a b : Code) : Decidable (lexLt a b) := by
  unfold lexLt; infer_instance

/-- Lexicographic order on symbol sequences read backwards: the last position
is compared first, position 0 last. -/
def colexLt (a b : Code) : Prop :=
  ∃ i : Fin CODE_LENGTH, a.colors i < b.colors i ∧ ∀ j : Fin CODE_LENGTH, i < j →
    a.colors j = b.colors j

instance (a b : Code) : Decidable (colexLt a b) := by
  unfold colexLt; infer_instance

/-! ## Generic facts about the loops -/

theorem countP_finRange (n : Nat) (p : Fin n → Prop) [DecidablePred p] :
    (List.finRange n).countP (fun i => decide (p i)) = (Finset.univ.filter p).card := by
  rw [List.countP_eq_length_filter]
  rfl

theorem foldl_add_eq_sum {α : Type} (l : List α) (g : α → Int) (z : Int) :
    l.foldl (fun m i => m + g i) z = z + (l.map g).sum := by
  induction l generalizing z with
  | nil => simp
  | cons a l ih => simp [ih, add_assoc]

theorem foldl_incr_eq_countP {α : Type} (l : List α) (p : α → Prop) [DecidablePred p]
    (z : Int) :
    l.foldl (fun f i => if p i then f + 1 else f) z = z + (l.countP (fun i => decide (p i)) : Nat) := by
  induction l generalizing z with
  | nil => simp
  | cons a l ih =>
    by_cases h : p a
    · simp [ih, h, add_assoc, add_comm]
    · simp [ih, h]

/-! ## `calcResponse` -/

theorem incrCount_apply (count : Fin COLOR_COUNT → Int) (x : Nat) (s : Fin COLOR_COUNT) :
    incrCount count x s = count s + if x = (s : Nat) then 1 else 0 := by
  unfold incrCount
  by_cases hx : x < COLOR_COUNT
  · rw [dif_pos hx]
    by_cases hs : s = ⟨x, hx⟩
    · subst hs; simp
    · have : x ≠ (s : Nat) := fun e => hs (Fin.ext e.symm)
      simp [Function.update_noteq hs, this]
  · rw [dif_neg hx]
    have : x ≠ (s : Nat) := fun e => hx (e ▸ s.isLt)
    simp [this]

/-- The counting loop of `calcResponse` adds, to each cell `s` of both arrays,
the number of visited positions holding `s`. -/
theorem countLoop_apply (input hidden : Code) (l : List (Fin CODE_LENGTH))
    (init : (Fin COLOR_COUNT → Int) × (Fin COLOR_COUNT → Int)) (s : Fin COLOR_COUNT) :
    let r := l.foldl
      (fun (cs : (Fin COLOR_COUNT → Int) × (Fin COLOR_COUNT → Int)) i =>
        (incrCount cs.1 (input.colors i), incrCount cs.2 (hidden.colors i))) init
    r.1 s = init.1 s + (l.countP (fun i => decide (input.colors i = (s : Nat))) : Nat) ∧
    r.2 s = init.2 s + (l.countP (fun i => decide (hidden.colors i = (s : Nat))) : Nat) := by
  induction l generalizing init with
  | nil => simp
  | cons a l ih =>
    simp only [List.foldl_cons]
    have := ih (incrCount init.1 (input.colors a), incrCount init.2 (hidden.colors a))
    simp only [incrCount_apply] at this
    obtain ⟨h1, h2⟩ := this
    refine ⟨?_, ?_⟩
    · rw [h1, List.countP_cons]
      by_cases e : input.colors a = (s : Nat)
      · simp [e]; ring
      · simp [e]
    · rw [h2, List.countP_cons]
      by_cases e : hidden.colors a = (s : Nat)
      · simp [e]; ring
      · simp [e]

/-- What `calcResponse` computes, in the vocabulary of the specification. -/
theorem calcResponse_eq (input hidden : Code) :
    calcResponse input hidden =
      { fit := (positionMatches input hidden : Int)
        misplaced := (colorMatches input hidden : Int) - (positionMatches input hidden : Int) } := by
  have hc := countLoop_apply input hidden (List.finRange CODE_LENGTH) (fun _ => 0, fun _ => 0)
  simp only [countP_finRange, zero_add] at hc
  have hfit : (List.finRange CODE_LENGTH).foldl
      (fun (f : Int) i => if input.colors i = hidden.colors i then f + 1 else f) 0 =
      (positionMatches input hidden : Int) := by
    rw [foldl_incr_eq_countP, countP_finRange, zero_add]; rfl
  have hmin : ∀ a b : Nat, (if (a : Int) < (b : Int) then (a : Int) else (b : Int)) =
      ((min a b : Nat) : Int) := by
    intro a b
    by_cases h : a < b
    · simp [h, Nat.min_eq_left (Nat.le_of_lt h)]
    · simp [h, Nat.min_eq_right (Nat.not_lt.mp h)]
  unfold calcResponse
  simp only [hfit, foldl_add_eq_sum, zero_add]
  congr 1
  congr 1
  have : ((List.finRange COLOR_COUNT).map fun i : Fin COLOR_COUNT =>
      ((min (input.count i) (hidden.count i) : Nat) : Int)).sum =
      ∑ i : Fin COLOR_COUNT, ((min (input.count i) (hidden.count i) : Nat) : Int) := rfl
  rw [colorMatches, ← Fin.sum_univ_eq_sum_range (fun s => min (input.count s) (hidden.count s)),
    Nat.cast_sum, ← this]
  congr 1
  apply List.map_congr_left
  intro s _
  rw [(hc s).1, (hc s).2, hmin]
  rfl

theorem positionMatches_comm (a b : Code) : positionMatches a b = positionMatches b a := by
  unfold positionMatches
  congr 1
  ext i
  simp [eq_comm]

theorem colorMatches_comm (a b : Code) : colorMatches a b = colorMatches b a := by
  unfold colorMatches
  exact Finset.sum_congr rfl (fun s _ => Nat.min_comm _ _)

theorem sum_count_range (a : Code) :
    ∑ s in Finset.range COLOR_COUNT, a.count s =
      (Finset.univ.filter (fun i : Fin CODE_LENGTH => a.colors i < COLOR_COUNT)).card := by
  rw [Finset.card_eq_sum_card_fiberwise (f := a.colors) (t := Finset.range COLOR_COUNT)
    (fun x hx => by simpa using hx)]
  apply Finset.sum_congr rfl
  intro s hs
  unfold Code.count
  congr 1
  ext i
  simp only [Finset.mem_filter, Finset.mem_univ, true_and]
  constructor
  · intro h
    exact ⟨h ▸ Finset.mem_range.mp hs, h⟩
  · exact fun h => h.2

theorem sum_count_valid (a : Code) (ha : a.valid) :
    ∑ s in Finset.range COLOR_COUNT, a.count s = CODE_LENGTH := by
  rw [sum_count_range, Finset.filter_true_of_mem (fun i _ => ha i)]
  rfl

theorem colorMatches_le (a b : Code) : colorMatches a b ≤ CODE_LENGTH := by
  calc colorMatches a b
      ≤ ∑ s in Finset.range COLOR_COUNT, a.count s :=
        Finset.sum_le_sum (fun s _ => Nat.min_le_left _ _)
    _ = (Finset.univ.filter (fun i : Fin CODE_LENGTH => a.colors i < COLOR_COUNT)).card :=
        sum_count_range a
    _ ≤ (Finset.univ : Finset (Fin CODE_LENGTH)).card := Finset.card_filter_le _ _
    _ = CODE_LENGTH := by simp

theorem positionMatches_le_colorMatches (a b : Code) (ha : a.valid) :
    positionMatches a b ≤ colorMatches a b := by
  unfold positionMatches colorMatches
  rw [Finset.card_eq_sum_card_fiberwise (f := a.colors) (t := Finset.range COLOR_COUNT)
    (fun x _ => Finset.mem_range.mpr (ha x))]
  apply Finset.sum_le_sum
  intro s _
  apply Nat.le_min.mpr
  constructor
  · apply Finset.card_le_card
    intro i hi
    simp only [Finset.mem_filter, Finset.mem_univ, true_and] at hi ⊢
    exact hi.2
  · apply Finset.card_le_card
    intro i hi
    simp only [Finset.mem_filter, Finset.mem_univ, true_and] at hi ⊢
    exact hi.1 ▸ hi.2

theorem positionMatches_le (a b : Code) : positionMatches a b ≤ CODE_LENGTH := by
  unfold positionMatches
  calc _ ≤ (Finset.univ : Finset (Fin CODE_LENGTH)).card := Finset.card_filter_le _ _
    _ = CODE_LENGTH := by simp

theorem positionMatches_self (a : Code) : positionMatches a a = CODE_LENGTH := by
  simp [positionMatches]

theorem colorMatches_self (a : Code) (ha : a.valid) : colorMatches a a = CODE_LENGTH := by
  unfold colorMatches
  simp only [Nat.min_self]
  exact sum_count_valid a ha

theorem eq_of_positionMatches (a b : Code) (h : positionMatches a b = CODE_LENGTH) : a = b := by
  unfold positionMatches at h
  have h2 : (Finset.univ.filter (fun i : Fin CODE_LENGTH => a.colors i = b.colors i)).card =
      (Finset.univ : Finset (Fin CODE_LENGTH)).card := by rw [h]; simp
  rw [Finset.card_filter_eq_iff] at h2
  cases a with | mk ca =>
  cases b with | mk cb =>
  congr
  funext i
  exact h2 i (Finset.mem_univ i)

/-! ## `codeFitsTurn` and `codeFitsTurnStack` -/

theorem codeFitsTurn_iff (c : Code) (t : Turn) :
    codeFitsTurn c t = true ↔
      (calcResponse c t.code).fit = t.response.fit ∧
      (calcResponse c t.code).misplaced = t.response.misplaced := by
  simp [codeFitsTurn]

theorem codeFitsTurnStack_iff (c : Code) (H : List Turn) :
    codeFitsTurnStack c H = true ↔ ∀ t ∈ H, codeFitsTurn c t = true := by
  induction H with
  | nil => simp [codeFitsTurnStack]
  | cons t H ih =>
    by_cases h : codeFitsTurn c t = true
    · simp [codeFitsTurnStack, h, ih]
    · simp [codeFitsTurnStack, h]

theorem codeFitsTurnStack_perm (c : Code) {H H1 : List Turn} (h : H.Perm H1) :
    codeFitsTurnStack c H1 = codeFitsTurnStack c H := by
  rw [Bool.eq_iff_iff, codeFitsTurnStack_iff, codeFitsTurnStack_iff]
  constructor
  · exact fun hh t ht => hh t (h.mem_iff.mp ht)
  · exact fun hh t ht => hh t (h.mem_iff.mpr ht)

theorem codeFitsTurn_self (g : Code) : codeFitsTurn g ⟨g, calcResponse g g⟩ = true := by
  simp [codeFitsTurn]

/-! ## The enumeration `setCodeToZero`, `nextCode`, `nextCode`, ... -/

theorem setCodeToZero_eq (c : Code) : setCodeToZero c = { colors := fun _ => 0 } := by
  unfold setCodeToZero
  have : List.finRange CODE_LENGTH = [0, 1, 2, 3] := rfl
  rw [this]
  simp only [List.foldl_cons, List.foldl_nil]
  congr 1
  funext i
  fin_cases i <;> rfl

theorem ord_eq (c : Code) :
    ord c = c.colors 0 + c.colors 1 * 8 + c.colors 2 * 64 + c.colors 3 * 512 := by
  have h3 : ((3 : Fin 4) : Nat) = 3 := rfl
  simp only [ord, Fin.sum_univ_four, COLOR_COUNT, CODE_LENGTH, h3]
  norm_num

theorem valid_iff (c : Code) :
    c.valid ↔ c.colors 0 < 8 ∧ c.colors 1 < 8 ∧ c.colors 2 < 8 ∧ c.colors 3 < 8 := by
  constructor
  · intro h
    exact ⟨h 0, h 1, h 2, h 3⟩
  · rintro ⟨h0, h1, h2, h3⟩ i
    fin_cases i
    · exact h0
    · exact h1
    · exact h2
    · exact h3

theorem ord_lt (c : Code) (hc : c.valid) : ord c < 4096 := by
  rw [valid_iff] at hc
  rw [ord_eq]
  omega

theorem ord_inj (a b : Code) (ha : a.valid) (hb : b.valid) (h : ord a = ord b) : a = b := by
  rw [valid_iff] at ha hb
  rw [ord_eq, ord_eq] at h
  cases a with | mk ca =>
  cases b with | mk cb =>
  congr
  funext i
  simp only at ha hb h
  fin_cases i
  · show ca 0 = cb 0; omega
  · show ca 1 = cb 1; omega
  · show ca 2 = cb 2; omega
  · show ca 3 = cb 3; omega

/-- On a valid code that is not the last one, `nextCode` returns 1 and leaves
the valid code whose ordinal is one larger; it keeps its accesses inside the
array and leaves the memory after the array as it is. -/
theorem nextCode_of_lt (c : Code) (hc : c.valid) (h : ord c < 4095) (past : List Int) :
    (nextCode c past).ret = true ∧ (nextCode c past).code.valid ∧
      ord (nextCode c past).code = ord c + 1 ∧ (nextCode c past).i < CODE_LENGTH ∧
      (nextCode c past).past = past ∧ (nextCode c past).fault = false := by
  rw [valid_iff] at hc
  rw [ord_eq] at h
  rw [nextCode_eq]
  split_ifs with h0 h1 h2 h3 <;>
    simp only [valid_iff, ord_eq, Function.update_apply, Fin.reduceEq, ↓reduceIte, true_and,
      and_true, CODE_LENGTH] <;>
    omega

/-- On the last code (ordinal 4095, all symbols `COLOR_COUNT - 1`) the loop of
`nextCode` leaves the array: `i` ends at `CODE_LENGTH` or beyond, and the
function returns 0. -/
theorem nextCode_of_last (c : Code) (hc : c.valid) (h : ord c = 4095) (past : List Int) :
    (nextCode c past).ret = false ∧ CODE_LENGTH ≤ (nextCode c past).i := by
  rw [valid_iff] at hc
  rw [ord_eq] at h
  rw [nextCode_eq]
  split_ifs with h0 h1 h2 h3
  · omega
  · omega
  · omega
  · omega
  · exact ⟨rfl, nextCodeLoop_le past 4⟩

/-- The code `nextCode` leaves does not depend on the memory after the array. -/
theorem nextCode_code_past (c : Code) (past past1 : List Int) :
    (nextCode c past).code = (nextCode c past1).code := by
  rw [nextCode_eq, nextCode_eq]
  split_ifs <;> rfl

theorem getCodeCount_eq : getCodeCount = 4096 := by decide

theorem nthCode_zero : nthCode 0 = { colors := fun _ => 0 } := by
  simp [nthCode, setCodeToZero_eq]

theorem nthCode_succ (k : Nat) (past : List Int) :
    nthCode (k + 1) = (nextCode (nthCode k) past).code := by
  unfold nthCode
  rw [Function.iterate_succ_apply']
  exact nextCode_code_past _ _ _

/-- The code visited in iteration `k` is valid and has ordinal `k`. -/
theorem nthCode_valid_ord (k : Nat) (hk : k < 4096) :
    (nthCode k).valid ∧ ord (nthCode k) = k := by
  induction k with
  | zero =>
    rw [nthCode_zero]
    refine ⟨fun i => by simp, ?_⟩
    simp [ord_eq]
  | succ k ih =>
    obtain ⟨hv, ho⟩ := ih (by omega)
    have := nextCode_of_lt (nthCode k) hv (by omega) []
    rw [nthCode_succ k []]
    exact ⟨this.2.1, by rw [this.2.2.1, ho]⟩

theorem nthCode_ord (c : Code) (hc : c.valid) : nthCode (ord c) = c :=
  ord_inj _ _ (nthCode_valid_ord _ (ord_lt c hc)).1 hc (nthCode_valid_ord _ (ord_lt c hc)).2

theorem nthCode_inj (j k : Nat) (hj : j < 4096) (hk : k < 4096) (h : nthCode j = nthCode k) :
    j = k := by
  rw [← (nthCode_valid_ord j hj).2, ← (nthCode_valid_ord k hk).2, h]

/-- The call of `nextCode` that ends iteration `k < 4095` of an enumeration loop
stays inside the array, returns 1, moves to the code number `k + 1` and leaves
the memory after the array as it is. -/
theorem nextCode_nthCode_lt (k : Nat) (hk : k < 4095) (past : List Int) :
    (nextCode (nthCode k) past).i < CODE_LENGTH ∧ (nextCode (nthCode k) past).ret = true ∧
      (nextCode (nthCode k) past).code = nthCode (k + 1) ∧
      (nextCode (nthCode k) past).past = past := by
  obtain ⟨hv, ho⟩ := nthCode_valid_ord k (by omega)
  have := nextCode_of_lt (nthCode k) hv (by omega) past
  exact ⟨this.2.2.2.1, this.1, (nthCode_succ k past).symm, this.2.2.2.2.1⟩

/-- The call of `nextCode` that ends iteration 4095, on the last code, leaves
the array. -/
theorem nextCode_nthCode_last (past : List Int) :
    ¬ (nextCode (nthCode 4095) past).i < CODE_LENGTH := by
  obtain ⟨hv, ho⟩ := nthCode_valid_ord 4095 (by omega)
  exact Nat.not_lt.mpr (nextCode_of_last (nthCode 4095) hv ho past).2

/-- An enumeration loop whose body always has a result, entered at the code
number `k`, runs the body on the codes number `k`, `k + 1`, ..., 4095; the call
of `nextCode` on the code number 4095 then leaves the array, and the loop has
no defined result. -/
theorem doWhileNextCode_from {σ α : Type} (body : σ → Code → Option σ) (f : σ → Code → σ)
    (hb : ∀ s c, body s c = some (f s c)) (after lost : σ → α) (past : List Int) (n k : Nat)
    (hk : k + n = 4095) (s : σ) :
    doWhileNextCode body after lost s (nthCode k) past =
      lost ((List.range' k (n + 1)).foldl (fun s j => f s (nthCode j)) s) := by
  induction n generalizing k s with
  | zero =>
    have hk4 : k = 4095 := by omega
    subst hk4
    rw [doWhileNextCode, hb]
    simp only [nextCode_nthCode_last past, if_false]
    rfl
  | succ n ih =>
    obtain ⟨hi, hr, hcode, hpast⟩ := nextCode_nthCode_lt k (by omega) past
    rw [doWhileNextCode, hb]
    simp only [hi, if_true]
    rw [dif_pos hr, hcode, hpast, ih (k + 1) (by omega)]
    rw [List.range'_succ k (n + 1), List.foldl_cons]

/-- Every enumeration loop of the source whose body always has a result,
started at the all-zero code, runs its body once on each of the `getCodeCount`
codes, in the order of `nthCode`, and then has no defined result: its last call of
`nextCode` leaves the array. -/
theorem doWhileNextCode_eq_foldl {σ α : Type} (body : σ → Code → Option σ) (f : σ → Code → σ)
    (hb : ∀ s c, body s c = some (f s c)) (after lost : σ → α) (past : List Int) (s : σ) :
    doWhileNextCode body after lost s (setCodeToZero localCode) past =
      lost ((List.range getCodeCount).foldl (fun s j => f s (nthCode j)) s) := by
  have h0 : setCodeToZero localCode = nthCode 0 := by rw [nthCode_zero, setCodeToZero_eq]
  rw [h0, doWhileNextCode_from body f hb after lost past 4095 0 (by omega) s, getCodeCount_eq,
    List.range_eq_range']

/-- No enumeration loop of the source entered at one of the `getCodeCount` codes
reaches what follows it: whatever the body does, the loop has no defined result. -/
theorem doWhileNextCode_lost_from {σ α : Type} (body : σ → Code → Option σ)
    (after lost : σ → α) (past : List Int) (n k : Nat) (hk : k + n = 4095) (s : σ) :
    ∃ s1, doWhileNextCode body after lost s (nthCode k) past = lost s1 := by
  induction n generalizing k s with
  | zero =>
    have hk4 : k = 4095 := by omega
    subst hk4
    rw [doWhileNextCode]
    cases hbody : body s (nthCode 4095) with
    | none => exact ⟨s, rfl⟩
    | some s1 =>
      refine ⟨s1, ?_⟩
      simp only [nextCode_nthCode_last past, if_false]
  | succ n ih =>
    obtain ⟨hi, hr, hcode, hpast⟩ := nextCode_nthCode_lt k (by omega) past
    rw [doWhileNextCode]
    cases hbody : body s (nthCode k) with
    | none => exact ⟨s, rfl⟩
    | some s1 =>
      simp only [hi, if_true]
      rw [dif_pos hr, hcode, hpast]
      exact ih (k + 1) (by omega) s1

/-- No enumeration loop of the source started at the all-zero code reaches what
follows it. -/
theorem doWhileNextCode_lost {σ α : Type} (body : σ → Code → Option σ)
    (after lost : σ → α) (past : List Int) (s : σ) :
    ∃ s1, doWhileNextCode body after lost s (setCodeToZero localCode) past = lost s1 := by
  have h0 : setCodeToZero localCode = nthCode 0 := by rw [nthCode_zero, setCodeToZero_eq]
  rw [h0]
  exact doWhileNextCode_lost_from body after lost past 4095 0 (by omega) s

/-- A loop that carries its own iteration counter in the state keeps that
counter equal to the number of the iteration. -/
theorem foldl_range_sync {σ τ : Type} (B : τ → Nat → τ) (G : σ → Nat → σ) (e : σ → Nat → τ)
    (hB : ∀ s k, B (e s k) k = e (G s k) (k + 1)) (s : σ) (n : Nat) :
    (List.range n).foldl B (e s 0) = e ((List.range n).foldl G s) n := by
  induction n with
  | zero => simp
  | succ n ih => rw [List.range_succ, List.foldl_append, List.foldl_append, ih]; simp [hB]

theorem foldl_count_range (p : Nat → Prop) [DecidablePred p] (n : Nat) :
    (List.range n).foldl (fun count k => if p k then count + 1 else count) 0 =
      ((Finset.range n).filter p).card := by
  induction n with
  | zero => simp
  | succ n ih =>
    rw [List.range_succ, List.foldl_append, ih, Finset.range_succ, Finset.filter_insert]
    by_cases h : p n
    · simp [h]
    · simp [h]

theorem foldl_max_range (q : Nat → Prop) [DecidablePred q] (c : Nat → Nat) (n : Nat) :
    (List.range n).foldl
        (fun result k => if q k then (if c k > result then c k else result) else result) 0 =
      ((Finset.range n).filter q).sup c := by
  induction n with
  | zero => simp
  | succ n ih =>
    rw [List.range_succ, List.foldl_append, ih, Finset.range_succ, Finset.filter_insert]
    by_cases h : q n
    · simp only [List.foldl_cons, List.foldl_nil, h, if_true, Finset.sup_insert]
      split_ifs with h1
      · exact (sup_eq_left.mpr (Nat.le_of_lt h1)).symm
      · exact (sup_eq_right.mpr (Nat.not_lt.mp h1)).symm
    · simp [h]

/-! ## `countPossibleCodes` and `evalGuess` -/

/-- The loop of `countPossibleCodes` run over the first `n` codes: `count` is the
number of iterations `k` whose mask entry is set and whose code fits the stack,
and `i` is `n`. -/
theorem countScan (turnStack : List Turn) (mask : List Nat) (n : Nat) :
    (List.range n).foldl (fun st j => countPossibleCodesStep turnStack mask st (nthCode j))
        (0, 0) =
      (((Finset.range n).filter (fun k =>
        mask.getD k 0 ≠ 0 ∧ codeFitsTurnStack (nthCode k) turnStack = true)).card, n) := by
  have := foldl_range_sync
    (fun (st : Nat × Nat) j => countPossibleCodesStep turnStack mask st (nthCode j))
    (fun count k => if mask.getD k 0 ≠ 0 ∧ codeFitsTurnStack (nthCode k) turnStack = true
        then count + 1 else count)
    Prod.mk (fun s k => by simp [countPossibleCodesStep]) 0 n
  rw [← foldl_count_range]
  exact this

/-- What `countPossibleCodes` does: it counts over all `getCodeCount` codes, and
its last call of `nextCode` leaves the array; the function has no defined result. -/
theorem countPossibleCodes_eq (turnStack : List Turn) (mask : List Nat) (past : List Int) :
    countPossibleCodes turnStack mask past =
      Outcome.outOfRange (((Finset.range getCodeCount).filter (fun k =>
        mask.getD k 0 ≠ 0 ∧ codeFitsTurnStack (nthCode k) turnStack = true)).card,
        getCodeCount) := by
  unfold countPossibleCodes
  rw [doWhileNextCode_eq_foldl _ (countPossibleCodesStep turnStack mask) (fun _ _ => rfl)]
  exact congrArg Outcome.outOfRange (countScan turnStack mask getCodeCount)

/-- The body of the loop of `evalGuess` has no defined result once the mask entry it
reads is set: the call of `countPossibleCodes` has none. -/
theorem evalGuessStep_of_set (g : Code) (H : List Turn) (mask : List Nat) (past : List Int)
    (st : Nat × Nat) (c : Code) (h : mask.getD st.2 0 ≠ 0) :
    evalGuessStep g H mask past st c = none := by
  unfold evalGuessStep
  simp only [h, ne_eq, not_false_eq_true, if_true]
  rw [countPossibleCodes_eq]

/-- The body of the loop of `evalGuess` only advances `i` when the mask entry it
reads is clear. -/
theorem evalGuessStep_of_clear (g : Code) (H : List Turn) (mask : List Nat) (past : List Int)
    (st : Nat × Nat) (c : Code) (h : mask.getD st.2 0 = 0) :
    evalGuessStep g H mask past st c = some (st.1, st.2 + 1) := by
  unfold evalGuessStep
  simp only [h, ne_eq, not_true_eq_false, if_false]

/-- `evalGuess` has no defined result, whatever its arguments are. -/
theorem evalGuess_lost (g : Code) (H : List Turn) (mask : List Nat) (past : List Int) :
    ∃ st, evalGuess g H mask past = Outcome.outOfRange st := by
  unfold evalGuess
  exact doWhileNextCode_lost _ _ _ past (0, 0)

/-- When the first mask entry is set, `evalGuess` is lost in its first
iteration, in the call of `countPossibleCodes`. -/
theorem evalGuess_of_first_set (g : Code) (H : List Turn) (mask : List Nat) (past : List Int)
    (h : mask.getD 0 0 ≠ 0) :
    evalGuess g H mask past = Outcome.outOfRange (0, 0) := by
  unfold evalGuess
  rw [doWhileNextCode, evalGuessStep_of_set g H mask past (0, 0) _ h]

theorem foldl_counter (n : Nat) (r : Nat) :
    (List.range n).foldl (fun (st : Nat × Nat) (_ : Nat) => (st.1, st.2 + 1)) (r, 0) = (r, n) := by
  induction n with
  | zero => rfl
  | succ n ih => rw [List.range_succ, List.foldl_append, ih]; rfl

/-- When no mask entry is set, `evalGuess` calls `countPossibleCodes` nowhere,
runs over all `getCodeCount` codes with `result = 0`, and is lost in its own
last call of `nextCode`. -/
theorem evalGuess_of_mask_clear (g : Code) (H : List Turn) (mask : List Nat) (past : List Int)
    (h0 : ∀ k, mask.getD k 0 = 0) :
    evalGuess g H mask past = Outcome.outOfRange (0, getCodeCount) := by
  unfold evalGuess
  rw [doWhileNextCode_eq_foldl _ (fun (st : Nat × Nat) (_ : Code) => (st.1, st.2 + 1))
    (fun st c => evalGuessStep_of_clear g H mask past st c (h0 st.2))]
  exact congrArg Outcome.outOfRange (foldl_counter getCodeCount 0)

/-- The recurrence of the loop of `evalGuess`, run over the first `n` codes with
the count `cnt k` in iteration `k`: `result` ends as the largest count over the
iterations whose mask entry is set (0 when there is none), and `i` as `n`. -/
theorem evalScan (mask : List Nat) (cnt : Nat → Nat) (n : Nat) :
    (List.range n).foldl
        (fun (st : Nat × Nat) k =>
          if mask.getD st.2 0 ≠ 0 then (evalGuessUpdate st.1 (cnt k), st.2 + 1)
          else (st.1, st.2 + 1)) (0, 0) =
      (((Finset.range n).filter (fun k => mask.getD k 0 ≠ 0)).sup cnt, n) := by
  have := foldl_range_sync
    (fun (st : Nat × Nat) k =>
      if mask.getD st.2 0 ≠ 0 then (evalGuessUpdate st.1 (cnt k), st.2 + 1)
      else (st.1, st.2 + 1))
    (fun result k =>
      if mask.getD k 0 ≠ 0 then (if cnt k > result then cnt k else result) else result)
    Prod.mk (fun s k => by
      simp only [evalGuessUpdate]
      split_ifs <;> rfl) 0 n
  rw [← foldl_max_range]
  exact this

/-! ## `calcBestGuess` -/

/-- Writing `v k` at index `k` for `k = 0, ..., n - 1` overwrites the first `n`
cells of a buffer and leaves the rest. -/
theorem foldl_set_range (v : Nat → Nat) (buf : List Nat) (n : Nat) (hn : n ≤ buf.length) :
    (List.range n).foldl (fun b k => b.set k (v k)) buf =
      (List.range n).map v ++ buf.drop n := by
  induction n with
  | zero => simp
  | succ n ih =>
    rw [List.range_succ, List.foldl_append, ih (by omega)]
    simp only [List.foldl_cons, List.foldl_nil, List.map_append, List.map_cons, List.map_nil]
    have hlen : ((List.range n).map v).length = n := by simp
    rw [List.set_append_right _ _ (by omega), hlen, Nat.sub_self,
      List.drop_eq_getElem_cons (by omega : n < buf.length)]
    simp only [List.set_cons_zero, List.append_assoc, List.singleton_append]

theorem malloc_length (size : Nat) (junk : Nat → Nat) : (malloc size junk).length = size := by
  simp [malloc]

/-- The first loop of `calcBestGuess`, run over `n` codes on a buffer of `n`
bytes: every byte is written, whatever the buffer held before. -/
theorem maskScan (H : List Turn) (junk : Nat → Nat) (n : Nat) :
    (List.range n).foldl (fun st j => calcBestGuessMaskStep H st (nthCode j))
        (malloc n junk, 0) =
      ((List.range n).map (fun k => if codeFitsTurnStack (nthCode k) H then 1 else 0), n) := by
  have := foldl_range_sync
    (fun (st : List Nat × Nat) j => calcBestGuessMaskStep H st (nthCode j))
    (fun b k => b.set k (if codeFitsTurnStack (nthCode k) H then 1 else 0))
    Prod.mk (fun s k => rfl) (malloc n junk) n
  refine this.trans ?_
  rw [foldl_set_range _ _ n (by rw [malloc_length]), List.drop_of_length_le (by rw [malloc_length])]
  simp

theorem maskScan_candidateMask (H : List Turn) (junk : Nat → Nat) :
    (List.range getCodeCount).foldl (fun st j => calcBestGuessMaskStep H st (nthCode j))
        (malloc getCodeCount junk, 0) = (candidateMask H, getCodeCount) :=
  maskScan H junk getCodeCount

/-- The first loop of `calcBestGuess` writes the candidate mask and has
`codeIndex` at `getCodeCount` when its last call of `nextCode` leaves the
array; the loop has no defined result. -/
theorem calcBestGuessMask_eq (H : List Turn) (junk : Nat → Nat) (past : List Int) :
    calcBestGuessMask H junk past = Outcome.outOfRange (candidateMask H, getCodeCount) := by
  unfold calcBestGuessMask
  rw [doWhileNextCode_eq_foldl _ (calcBestGuessMaskStep H) (fun _ _ => rfl)]
  exact congrArg Outcome.outOfRange (maskScan_candidateMask H junk)

/-- `calcBestGuess` is lost in its first loop, with the candidate mask written:
the second loop is not reached. -/
theorem calcBestGuess_eq (H : List Turn) (junk : Nat → Nat) (past : List Int) :
    calcBestGuess H junk past = Outcome.outOfRange (candidateMask H, getCodeCount) := by
  unfold calcBestGuess
  rw [doWhileNextCode_eq_foldl _ (calcBestGuessMaskStep H) (fun _ _ => rfl)]
  exact congrArg Outcome.outOfRange (maskScan_candidateMask H junk)

/-- The body of the second loop of `calcBestGuess` never has a result: its call
of `evalGuess` has none, so no key is computed. -/
theorem calcBestGuessStep_eq_none (H : List Turn) (mask : List Nat) (past : List Int)
    (st : Nat × Code × Nat) (code : Code) :
    calcBestGuessStep H mask past st code = none := by
  obtain ⟨s, hs⟩ := evalGuess_lost code H mask past
  unfold calcBestGuessStep
  simp only [hs]

/-- The second loop of `calcBestGuess`, taken on its own on any buffer, is lost
in its first iteration, with `codeIndex = 0`. -/
theorem calcBestGuessSearch_eq (H : List Turn) (mask : List Nat) (past : List Int) :
    calcBestGuessSearch H mask past = Outcome.outOfRange (mask, 0) := by
  unfold calcBestGuessSearch
  rw [doWhileNextCode, calcBestGuessStep_eq_none]

/-- The arithmetic of the search step: for a score `eval` of at most 4096 and a
mask entry that is 0 or 1, and 0 unless the score is at least 1, neither
`eval *= 2` nor `eval -= possibleCodeBools[codeIndex]` wraps; the key compared
with `bestGuessEval` is `2 * eval - possibleCodeBools[codeIndex]`, and it is
below `UINT_MAX`. -/
theorem calcBestGuessUpdate_no_wrap (mask : List Nat) (st : Nat × Code × Nat) (code : Code)
    (eval : Nat) (h1 : eval ≤ 4096) (h2 : mask.getD st.2.2 0 ≤ 1)
    (h3 : mask.getD st.2.2 0 ≠ 0 → 1 ≤ eval) :
    eval * 2 < UINT_RANGE ∧ mask.getD st.2.2 0 ≤ eval * 2 ∧
    eval * 2 - mask.getD st.2.2 0 < UINT_MAX ∧
    calcBestGuessUpdate mask st code eval =
      if eval * 2 - mask.getD st.2.2 0 < st.1
        then (eval * 2 - mask.getD st.2.2 0, code, st.2.2 + 1)
        else (st.1, st.2.1, st.2.2 + 1) := by
  have hb : mask.getD st.2.2 0 ≤ eval * 2 := by
    by_cases hz : mask.getD st.2.2 0 = 0
    · omega
    · have := h3 hz; omega
  have hkey : (eval * 2 % UINT_RANGE + UINT_RANGE - mask.getD st.2.2 0 % UINT_RANGE) % UINT_RANGE =
      eval * 2 - mask.getD st.2.2 0 := by
    simp only [UINT_RANGE]
    omega
  refine ⟨by simp only [UINT_RANGE]; omega, hb, by simp only [UINT_MAX]; omega, ?_⟩
  unfold calcBestGuessUpdate
  simp only [hkey]

/-- A strict-improvement scan keeps the first minimiser, provided some value
lies below the initial bound. -/
theorem foldl_argmin (f : Nat → Nat) (g : Nat → Code) (B : Nat) (c0 : Code) (n : Nat) :
    ((List.range n).foldl
          (fun (st : Nat × Code) k => if f k < st.1 then (f k, g k) else st) (B, c0) = (B, c0) ∧
        ∀ j < n, B ≤ f j) ∨
      ∃ k < n, (List.range n).foldl
          (fun (st : Nat × Code) k => if f k < st.1 then (f k, g k) else st) (B, c0) =
            (f k, g k) ∧
        f k < B ∧ (∀ j < n, f k ≤ f j) ∧ ∀ j < k, f k < f j := by
  induction n with
  | zero => left; simp
  | succ n ih =>
    rw [List.range_succ, List.foldl_append]
    rcases ih with ⟨hr, hB⟩ | ⟨k, hk, hr, hkB, hmin, hfirst⟩
    · rw [hr]
      by_cases h : f n < B
      · right
        refine ⟨n, by omega, by simp [h], h, ?_, ?_⟩
        · intro j hj
          rcases Nat.lt_succ_iff_lt_or_eq.mp hj with h1 | h1
          · have := hB j h1; omega
          · rw [h1]
        · intro j hj
          have := hB j hj; omega
      · left
        refine ⟨by simp [h], ?_⟩
        intro j hj
        rcases Nat.lt_succ_iff_lt_or_eq.mp hj with h1 | h1
        · exact hB j h1
        · rw [h1]; omega
    · rw [hr]
      right
      by_cases h : f n < f k
      · refine ⟨n, by omega, by simp [h], by omega, ?_, ?_⟩
        · intro j hj
          rcases Nat.lt_succ_iff_lt_or_eq.mp hj with h1 | h1
          · have := hmin j h1; omega
          · rw [h1]
        · intro j hj
          have := hmin j hj; omega
      · refine ⟨k, by omega, by simp [h], hkB, ?_, hfirst⟩
        intro j hj
        rcases Nat.lt_succ_iff_lt_or_eq.mp hj with h1 | h1
        · exact hmin j h1
        · rw [h1]; omega


/-- The search steps of `calcBestGuess`, run over the first `n` codes with the
score `e k` in iteration `k`: the counter `codeIndex` is the iteration number,
and what is kept is the result of a strict-improvement scan of the keys. -/
theorem searchScan_sync (mask : List Nat) (e : Nat → Nat) (c0 : Code) (n : Nat) :
    (List.range n).foldl (fun st j => calcBestGuessUpdate mask st (nthCode j) (e j))
      (UINT_MAX, c0, 0) =
    (((List.range n).foldl
        (fun (st : Nat × Code) k =>
          if (e k * 2 % UINT_RANGE + UINT_RANGE - mask.getD k 0 % UINT_RANGE) % UINT_RANGE < st.1
          then ((e k * 2 % UINT_RANGE + UINT_RANGE - mask.getD k 0 % UINT_RANGE) % UINT_RANGE,
            nthCode k)
          else st)
        (UINT_MAX, c0)).1,
     ((List.range n).foldl
        (fun (st : Nat × Code) k =>
          if (e k * 2 % UINT_RANGE + UINT_RANGE - mask.getD k 0 % UINT_RANGE) % UINT_RANGE < st.1
          then ((e k * 2 % UINT_RANGE + UINT_RANGE - mask.getD k 0 % UINT_RANGE) % UINT_RANGE,
            nthCode k)
          else st)
        (UINT_MAX, c0)).2, n) := by
  induction n with
  | zero => rfl
  | succ n ih =>
    rw [List.range_succ, List.foldl_append, List.foldl_append, ih]
    simp only [List.foldl_cons, List.foldl_nil, calcBestGuessUpdate]
    split_ifs <;> rfl

/-- The search steps of `calcBestGuess`, run over the first `n` codes with
scores within bounds (at most 4096, mask entries 0 or 1, and a score of at least
1 where the mask entry is set): they keep the first code whose key
`2 * score - entry` is minimal, together with that key. -/
theorem searchScan_argmin (mask : List Nat) (e : Nat → Nat) (c0 : Code) (n : Nat) (hn : 0 < n)
    (hb : ∀ j, j < n → e j ≤ 4096 ∧ mask.getD j 0 ≤ 1 ∧ (mask.getD j 0 ≠ 0 → 1 ≤ e j)) :
    ∃ k, k < n ∧
      (List.range n).foldl (fun st j => calcBestGuessUpdate mask st (nthCode j) (e j))
        (UINT_MAX, c0, 0) = (e k * 2 - mask.getD k 0, nthCode k, n) ∧
      (∀ j, j < n → e k * 2 - mask.getD k 0 ≤ e j * 2 - mask.getD j 0) ∧
      ∀ j, j < k → e k * 2 - mask.getD k 0 < e j * 2 - mask.getD j 0 := by
  have hkey : ∀ j, j < n →
      (e j * 2 % UINT_RANGE + UINT_RANGE - mask.getD j 0 % UINT_RANGE) % UINT_RANGE =
        e j * 2 - mask.getD j 0 ∧ e j * 2 - mask.getD j 0 < UINT_MAX := by
    intro j hj
    obtain ⟨h1, h2, h3⟩ := hb j hj
    have h4 : mask.getD j 0 ≤ e j * 2 := by
      by_cases hz : mask.getD j 0 = 0
      · omega
      · have := h3 hz; omega
    simp only [UINT_RANGE, UINT_MAX]
    omega
  rw [searchScan_sync]
  rcases foldl_argmin
      (fun k => (e k * 2 % UINT_RANGE + UINT_RANGE - mask.getD k 0 % UINT_RANGE) % UINT_RANGE)
      nthCode UINT_MAX c0 n with ⟨_, hB⟩ | ⟨k, hk, hr, _, hmin, hfirst⟩
  · exfalso
    have h0 := hB 0 hn
    have h1 := hkey 0 hn
    simp only at h0
    omega
  · refine ⟨k, hk, ?_, ?_, ?_⟩
    · rw [hr]
      simp only
      rw [(hkey k hk).1]
    · intro j hj
      have := hmin j hj
      simp only at this
      rw [(hkey k hk).1, (hkey j hj).1] at this
      exact this
    · intro j hj
      have := hfirst j hj
      simp only at this
      rw [(hkey k hk).1, (hkey j (hj.trans hk)).1] at this
      exact this

theorem candidateMask_getD (H : List Turn) (k : Nat) (hk : k < getCodeCount) :
    (candidateMask H).getD k 0 = if codeFitsTurnStack (nthCode k) H then 1 else 0 := by
  unfold candidateMask
  generalize getCodeCount = n at hk
  simp [List.getD_eq_getElem?_getD, List.getElem?_range, hk]

theorem candidateMask_length (H : List Turn) : (candidateMask H).length = getCodeCount := by
  simp [candidateMask]

theorem getCodeCount_pos : 0 < getCodeCount := by rw [getCodeCount_eq]; omega

/-! ## The visited sequence -/

theorem foldl_append_map (g : Nat → Code) (init : List Code) (l : List Nat) :
    l.foldl (fun (visited : List Code) j => visited ++ [g j]) init = init ++ l.map g := by
  induction l generalizing init with
  | nil => simp
  | cons a l ih => simp [ih]

/-- The enumeration visits the `getCodeCount` codes `nthCode 0`, `nthCode 1`,
... in this order; its last call of `nextCode` then leaves the array. -/
theorem visitedCodes_eq (past : List Int) :
    visitedCodes past = Outcome.outOfRange ((List.range getCodeCount).map nthCode) := by
  unfold visitedCodes
  rw [doWhileNextCode_eq_foldl _ (fun (visited : List Code) code => visited ++ [code])
    (fun _ _ => rfl)]
  exact congrArg Outcome.outOfRange
    ((foldl_append_map nthCode [] (List.range getCodeCount)).trans (List.nil_append _))

theorem mem_map_nthCode (c : Code) : c ∈ (List.range getCodeCount).map nthCode ↔ c.valid := by
  rw [List.mem_map]
  constructor
  · rintro ⟨k, hk, rfl⟩
    rw [List.mem_range, getCodeCount_eq] at hk
    exact (nthCode_valid_ord k hk).1
  · intro hc
    refine ⟨ord c, ?_, nthCode_ord c hc⟩
    rw [List.mem_range, getCodeCount_eq]
    exact ord_lt c hc

theorem nodup_map_nthCode : ((List.range getCodeCount).map nthCode).Nodup := by
  refine List.Nodup.map_on ?_ (List.nodup_range _)
  intro j hj k hk h
  rw [List.mem_range, getCodeCount_eq] at hj hk
  exact nthCode_inj j k hj hk h

theorem length_map_nthCode : ((List.range getCodeCount).map nthCode).length = getCodeCount := by
  rw [List.length_map, List.length_range]

/-! ## Pushing and popping turns -/

theorem codeFitsTurnStack_cons (c : Code) (t : Turn) (H : List Turn) :
    codeFitsTurnStack c (t :: H) = true ↔
      codeFitsTurn c t = true ∧ codeFitsTurnStack c H = true := by
  rw [codeFitsTurnStack_iff, codeFitsTurnStack_iff, List.forall_mem_cons]

theorem codeFitsTurnStack_of_push (c : Code) (t : Turn) (H : List Turn)
    (h : codeFitsTurnStack c (pushTurn H t) = true) : codeFitsTurnStack c H = true :=
  ((codeFitsTurnStack_cons c t H).mp h).2

theorem candidateMask_getD_ne_zero (H : List Turn) (k : Nat) (hk : k < getCodeCount) :
    (candidateMask H).getD k 0 ≠ 0 ↔ codeFitsTurnStack (nthCode k) H = true := by
  rw [candidateMask_getD H k hk]
  by_cases h : codeFitsTurnStack (nthCode k) H = true
  · simp [h]
  · simp [h]

theorem maskTrueCount_push_le (H : List Turn) (t : Turn) :
    maskTrueCount (candidateMask (pushTurn H t)) ≤ maskTrueCount (candidateMask H) := by
  unfold maskTrueCount
  apply Finset.card_le_card
  intro k hk
  rw [Finset.mem_filter] at hk ⊢
  have hk1 := Finset.mem_range.mp hk.1
  refine ⟨hk.1, ?_⟩
  rw [candidateMask_getD_ne_zero _ k hk1] at hk ⊢
  exact codeFitsTurnStack_of_push _ t H hk.2

theorem maskTrueCount_le (mask : List Nat) : maskTrueCount mask ≤ getCodeCount := by
  unfold maskTrueCount
  exact (Finset.card_filter_le _ _).trans (Finset.card_range _).le

theorem popTurn_pushTurn (H : List Turn) (t : Turn) : popTurn (pushTurn H t) = some H := rfl

/-! ## `readCode` and `printCodeLetters` -/

theorem readCodeLoop_fst (str : List Nat) (l : List (Fin CODE_LENGTH)) (code : Code) :
    (readCodeLoop str l code).1 = true ↔
      ∀ i ∈ l, CHAR_a ≤ str.getD i 0 ∧ str.getD i 0 < CHAR_a + COLOR_COUNT := by
  induction l generalizing code with
  | nil => simp [readCodeLoop]
  | cons i rest ih =>
    rw [readCodeLoop, List.forall_mem_cons]
    by_cases h : str.getD i 0 < CHAR_a ∨ str.getD i 0 ≥ CHAR_a + COLOR_COUNT
    · rw [if_pos h]
      constructor
      · intro hf; exact absurd hf (by simp)
      · intro hf; omega
    · rw [if_neg h, ih]
      constructor
      · intro hr; exact ⟨by omega, hr⟩
      · intro hr; exact hr.2

theorem readCodeLoop_snd (str : List Nat) (l : List (Fin CODE_LENGTH)) (code : Code)
    (hl : ∀ i ∈ l, CHAR_a ≤ str.getD i 0 ∧ str.getD i 0 < CHAR_a + COLOR_COUNT)
    (j : Fin CODE_LENGTH) :
    (readCodeLoop str l code).2.colors j =
      if j ∈ l then str.getD j 0 - CHAR_a else code.colors j := by
  induction l generalizing code with
  | nil => simp [readCodeLoop]
  | cons i rest ih =>
    rw [List.forall_mem_cons] at hl
    have h : ¬ (str.getD i 0 < CHAR_a ∨ str.getD i 0 ≥ CHAR_a + COLOR_COUNT) := by omega
    rw [readCodeLoop, if_neg h, ih _ hl.2]
    by_cases hj : j ∈ rest
    · simp [hj]
    · by_cases hji : j = i
      · subst hji; simp [hj]
      · simp [hj, hji, Function.update_noteq hji]

/-- `readCode` succeeds exactly on four characters in `'a'..'h'`, and then
stores `str[i] - 'a'` at every position. -/
theorem readCode_spec (str : List Nat) (len : Nat) (code : Code) :
    ((readCode str len code).1 = true ↔
      len = CODE_LENGTH ∧
        ∀ i : Fin CODE_LENGTH, CHAR_a ≤ str.getD i 0 ∧ str.getD i 0 < CHAR_a + COLOR_COUNT) ∧
    ((readCode str len code).1 = true →
      ∀ i : Fin CODE_LENGTH, (readCode str len code).2.colors i = str.getD i 0 - CHAR_a) := by
  unfold readCode
  by_cases hlen : len = CODE_LENGTH
  · have h26 : ¬ (COLOR_COUNT > 26) := by decide
    rw [if_neg (not_not.mpr hlen), if_neg h26, readCodeLoop_fst]
    refine ⟨?_, ?_⟩
    · constructor
      · intro h; exact ⟨hlen, fun i => h i (List.mem_finRange i)⟩
      · intro h i _; exact h.2 i
    · intro h i
      rw [readCodeLoop_snd str _ code h i, if_pos (List.mem_finRange i)]
  · rw [if_pos hlen]
    refine ⟨?_, ?_⟩
    · constructor
      · intro h; exact absurd h (by simp)
      · intro h; exact absurd h.1 hlen
    · intro h; exact absurd h (by simp)

theorem printCodeLetters_getD (c : Code) (i : Fin CODE_LENGTH) :
    (printCodeLetters c).getD i 0 = (c.colors i + CHAR_a) % 256 := by
  have h : printCodeLetters c =
      [(c.colors 0 + CHAR_a) % 256, (c.colors 1 + CHAR_a) % 256,
        (c.colors 2 + CHAR_a) % 256, (c.colors 3 + CHAR_a) % 256] := rfl
  rw [h]
  fin_cases i <;> rfl

theorem printCodeLetters_length (c : Code) : (printCodeLetters c).length = CODE_LENGTH := by
  simp [printCodeLetters]

/-- Decoding a text of four letters in `'a'..'h'` and printing the code gives
the text back. -/
theorem printCodeLetters_readCode (str : List Nat) (code : Code)
    (hlen : str.length = CODE_LENGTH)
    (hstr : ∀ i : Fin CODE_LENGTH,
      CHAR_a ≤ str.getD i 0 ∧ str.getD i 0 < CHAR_a + COLOR_COUNT) :
    (readCode str str.length code).1 = true ∧
      printCodeLetters (readCode str str.length code).2 = str := by
  have hspec := readCode_spec str str.length code
  have hok : (readCode str str.length code).1 = true := hspec.1.mpr ⟨hlen, hstr⟩
  refine ⟨hok, ?_⟩
  have hcol := hspec.2 hok
  match str, hlen, hstr, hcol with
  | [a, b, c, d], _, hstr, hcol =>
    have h0 := hstr 0
    have h1 := hstr 1
    have h2 := hstr 2
    have h3 := hstr 3
    have e : printCodeLetters (readCode [a, b, c, d] [a, b, c, d].length code).2 =
        [((readCode [a, b, c, d] [a, b, c, d].length code).2.colors 0 + CHAR_a) % 256,
         ((readCode [a, b, c, d] [a, b, c, d].length code).2.colors 1 + CHAR_a) % 256,
         ((readCode [a, b, c, d] [a, b, c, d].length code).2.colors 2 + CHAR_a) % 256,
         ((readCode [a, b, c, d] [a, b, c, d].length code).2.colors 3 + CHAR_a) % 256] := rfl
    rw [e, hcol 0, hcol 1, hcol 2, hcol 3]
    simp only [List.getD_cons_zero, Fin.val_zero, Fin.val_one, Fin.val_two,
      show ((3 : Fin CODE_LENGTH) : Nat) = 3 from rfl, List.getD_cons_succ] at h0 h1 h2 h3 ⊢
    have ea : (a - CHAR_a + CHAR_a) % 256 = a := by
      simp only [CHAR_a, COLOR_COUNT] at h0 ⊢; omega
    have eb : (b - CHAR_a + CHAR_a) % 256 = b := by
      simp only [CHAR_a, COLOR_COUNT] at h1 ⊢; omega
    have ec : (c - CHAR_a + CHAR_a) % 256 = c := by
      simp only [CHAR_a, COLOR_COUNT] at h2 ⊢; omega
    have ed : (d - CHAR_a + CHAR_a) % 256 = d := by
      simp only [CHAR_a, COLOR_COUNT] at h3 ⊢; omega
    rw [ea, eb, ec, ed]

/-- Printing a valid code and decoding the letters gives the code back. -/
theorem readCode_printCodeLetters (c code : Code) (hc : c.valid) :
    readCode (printCodeLetters c) (printCodeLetters c).length code = (true, c) := by
  have hin : ∀ i : Fin CODE_LENGTH, CHAR_a ≤ (printCodeLetters c).getD i 0 ∧
      (printCodeLetters c).getD i 0 < CHAR_a + COLOR_COUNT := by
    intro i
    rw [printCodeLetters_getD]
    have := hc i
    simp only [CHAR_a, COLOR_COUNT] at this ⊢
    omega
  have hspec := readCode_spec (printCodeLetters c) (printCodeLetters c).length code
  have hok := hspec.1.mpr ⟨printCodeLetters_length c, hin⟩
  have hcol := hspec.2 hok
  have hcode : (readCode (printCodeLetters c) (printCodeLetters c).length code).2 = c := by
    cases hr : (readCode (printCodeLetters c) (printCodeLetters c).length code).2 with
    | mk cr =>
      cases c with
      | mk cc =>
        congr
        funext i
        have h1 := hcol i
        rw [hr, printCodeLetters_getD] at h1
        have := hc i
        simp only [CHAR_a, COLOR_COUNT] at h1 this ⊢
        omega
  exact Prod.ext hok hcode

/-! ## The order of the enumeration -/

theorem colexLt_iff_ord (a b : Code) (ha : a.valid) (hb : b.valid) :
    colexLt a b ↔ ord a < ord b := by
  rw [valid_iff] at ha hb
  rw [ord_eq, ord_eq]
  constructor
  · rintro ⟨i, hlt, heq⟩
    have e1 := heq 1
    have e2 := heq 2
    have e3 := heq 3
    have hi : ∀ k : Fin CODE_LENGTH, k = 0 ∨ k = 1 ∨ k = 2 ∨ k = 3 := by decide
    rcases hi i with rfl | rfl | rfl | rfl
    · have := e1 (by decide); have := e2 (by decide); have := e3 (by decide)
      omega
    · have := e2 (by decide); have := e3 (by decide)
      omega
    · have := e3 (by decide)
      omega
    · omega
  · intro h
    by_cases h3 : a.colors 3 = b.colors 3
    · by_cases h2 : a.colors 2 = b.colors 2
      · by_cases h1 : a.colors 1 = b.colors 1
        · refine ⟨0, by omega, ?_⟩
          intro j hj
          fin_cases j
          · exact absurd hj (by decide)
          · exact h1
          · exact h2
          · exact h3
        · refine ⟨1, by omega, ?_⟩
          intro j hj
          fin_cases j
          · exact absurd hj (by decide)
          · exact absurd hj (by decide)
          · exact h2
          · exact h3
      · refine ⟨2, by omega, ?_⟩
        intro j hj
        fin_cases j
        · exact absurd hj (by decide)
        · exact absurd hj (by decide)
        · exact absurd hj (by decide)
        · exact h3
    · refine ⟨3, by omega, ?_⟩
      intro j hj
      fin_cases j <;> exact absurd hj (by decide)

theorem nextCode_ret_iff (c : Code) (hc : c.valid) (past : List Int) :
    (nextCode c past).ret = true ↔ ord c < 4095 := by
  constructor
  · intro h
    by_contra hn
    have hlt := ord_lt c hc
    rw [(nextCode_of_last c hc (by omega) past).1] at h
    exact absurd h (by simp)
  · intro h
    exact (nextCode_of_lt c hc h past).1

theorem ord_last_iff (c : Code) (hc : c.valid) :
    ord c = 4095 ↔ ∀ i : Fin CODE_LENGTH, c.colors i = COLOR_COUNT - 1 := by
  rw [valid_iff] at hc
  rw [ord_eq]
  constructor
  · intro h i
    fin_cases i
    · show c.colors 0 = 7; omega
    · show c.colors 1 = 7; omega
    · show c.colors 2 = 7; omega
    · show c.colors 3 = 7; omega
  · intro h
    have h0 : c.colors 0 = 7 := h 0
    have h1 : c.colors 1 = 7 := h 1
    have h2 : c.colors 2 = 7 := h 2
    have h3 : c.colors 3 = 7 := h 3
    omega

/-- On a valid code with a successor, `nextCode` leaves the least valid code
above it in the order that compares the last position first. -/
theorem nextCode_colex_least (c : Code) (hc : c.valid) (past : List Int)
    (h : (nextCode c past).ret = true) :
    (nextCode c past).code.valid ∧ colexLt c (nextCode c past).code ∧
      ∀ d : Code, d.valid → colexLt c d →
        d = (nextCode c past).code ∨ colexLt (nextCode c past).code d := by
  have hlt := (nextCode_ret_iff c hc past).mp h
  obtain ⟨_, hv, ho, _⟩ := nextCode_of_lt c hc hlt past
  refine ⟨hv, (colexLt_iff_ord c _ hc hv).mpr (by omega), ?_⟩
  intro d hd hcd
  have h1 := (colexLt_iff_ord c d hc hd).mp hcd
  by_cases he : ord d = ord (nextCode c past).code
  · left
    exact ord_inj d _ hd hv he
  · right
    exact (colexLt_iff_ord _ d hv hd).mpr (by omega)

/-! ## The accesses of `nextCode` -/

theorem nextCode_i (c : Code) (past : List Int) :
    (nextCode c past).i = (nextCodeLoop (codeMemory c past) 0).2.1 := by
  unfold nextCode
  simp only
  split <;> rfl

theorem nextCodeLoopAccesses_cons_ge (b : Nat) (rest : List Int) (i : Nat) (accesses : List Nat)
    (h : ¬ b < 7) :
    nextCodeLoopAccesses ((b : Int) :: rest) i accesses =
      nextCodeLoopAccesses rest (i + 1) (accesses ++ [i, i]) := by
  have : (b : Int) ≥ (COLOR_COUNT : Int) - 1 := by simp only [COLOR_COUNT]; push_cast; omega
  rw [nextCodeLoopAccesses, if_pos this]

theorem nextCodeLoopAccesses_cons_lt (b : Nat) (rest : List Int) (i : Nat) (accesses : List Nat)
    (h : b < 7) :
    nextCodeLoopAccesses ((b : Int) :: rest) i accesses = accesses ++ [i] := by
  have : ¬ (b : Int) ≥ (COLOR_COUNT : Int) - 1 := by simp only [COLOR_COUNT]; push_cast; omega
  rw [nextCodeLoopAccesses, if_neg this]

/-- The loop of `nextCode` keeps the accesses made so far and starts with the
read at its first index. -/
theorem nextCodeLoopAccesses_append (memory : List Int) (i : Nat) (accesses : List Nat) :
    ∃ l, nextCodeLoopAccesses memory i accesses = accesses ++ i :: l := by
  induction memory generalizing i accesses with
  | nil => exact ⟨[], rfl⟩
  | cons b rest ih =>
    unfold nextCodeLoopAccesses
    split_ifs
    · obtain ⟨l, hl⟩ := ih (i + 1) (accesses ++ [i, i])
      exact ⟨i :: (i + 1) :: l, by rw [hl]; simp⟩
    · exact ⟨[], rfl⟩

/-- Closed form of the accesses of `nextCode`: positions `0, ..., i` are read,
those before `i` are reset, and position `i` is incremented, unless the loop
has run through the whole array, in which case it goes on in the memory after
it. -/
theorem nextCodeAccesses_eq (c : Code) (past : List Int) :
    nextCodeAccesses c past =
      if c.colors 0 < 7 then [0, 0, 0]
      else if c.colors 1 < 7 then [0, 0, 1, 1, 1]
      else if c.colors 2 < 7 then [0, 0, 1, 1, 2, 2, 2]
      else if c.colors 3 < 7 then [0, 0, 1, 1, 2, 2, 3, 3, 3]
      else nextCodeLoopAccesses past 4 [0, 0, 1, 1, 2, 2, 3, 3] := by
  have hge : (nextCodeLoop past 4).2.1 ≥ CODE_LENGTH := nextCodeLoop_le past 4
  have hi := nextCode_i c past
  rw [nextCode_eq] at hi
  unfold nextCodeAccesses
  simp only
  rw [← hi, codeMemory_eq]
  by_cases h0 : c.colors 0 < 7
  · rw [nextCodeLoopAccesses_cons_lt _ _ _ _ h0]
    simp [h0]
  · rw [nextCodeLoopAccesses_cons_ge _ _ _ _ h0]
    by_cases h1 : c.colors 1 < 7
    · rw [nextCodeLoopAccesses_cons_lt _ _ _ _ h1]
      simp [h0, h1]
    · rw [nextCodeLoopAccesses_cons_ge _ _ _ _ h1]
      by_cases h2 : c.colors 2 < 7
      · rw [nextCodeLoopAccesses_cons_lt _ _ _ _ h2]
        simp [h0, h1, h2, CODE_LENGTH]
      · rw [nextCodeLoopAccesses_cons_ge _ _ _ _ h2]
        by_cases h3 : c.colors 3 < 7
        · rw [nextCodeLoopAccesses_cons_lt _ _ _ _ h3]
          simp [h0, h1, h2, h3, CODE_LENGTH]
        · rw [nextCodeLoopAccesses_cons_ge _ _ _ _ h3]
          simp [h0, h1, h2, h3, hge]

/-! ## The session -/

theorem calcResponse_comm (a b : Code) : calcResponse a b = calcResponse b a := by
  rw [calcResponse_eq, calcResponse_eq, positionMatches_comm a b, colorMatches_comm a b]

/-- The secret fits the turn that records its own answer to a guess. -/
theorem codeFitsTurn_answer (secret g : Code) :
    codeFitsTurn secret { code := g, response := calcResponse g secret } = true := by
  rw [codeFitsTurn_iff, calcResponse_comm secret g]
  exact ⟨rfl, rfl⟩

theorem sessionStep_invariant (secret : Code) (H : List Turn) (cmd : Command)
    (h : sessionInvariant secret H) : sessionInvariant secret (sessionStep secret H cmd) := by
  cases cmd with
  | pop =>
    cases H with
    | nil => exact h
    | cons t prev =>
      refine ⟨((codeFitsTurnStack_cons secret t prev).mp h.1).2, ?_⟩
      intro u hu
      exact h.2 u (List.mem_cons_of_mem _ hu)
  | guess g =>
    unfold sessionStep
    simp only
    split_ifs with hwin
    · exact h
    · refine ⟨(codeFitsTurnStack_cons secret _ H).mpr ⟨codeFitsTurn_answer secret g, h.1⟩, ?_⟩
      intro u hu
      rcases List.mem_cons.mp hu with rfl | hu
      · exact hwin
      · exact h.2 u hu

theorem foldl_sessionStep_invariant (secret : Code) (commands : List Command) (H : List Turn)
    (h : sessionInvariant secret H) :
    sessionInvariant secret (commands.foldl (sessionStep secret) H) := by
  induction commands generalizing H with
  | nil => exact h
  | cons cmd rest ih => exact ih _ (sessionStep_invariant secret H cmd h)

theorem session_invariant (secret : Code) (commands : List Command) :
    sessionInvariant secret (session secret commands) :=
  foldl_sessionStep_invariant secret commands [] ⟨rfl, fun _ h => absurd h (List.not_mem_nil _)⟩

/-! ## The entries of a mask that are set -/

theorem maskTrueCount_pos_iff (mask : List Nat) :
    0 < maskTrueCount mask ↔ ∃ k, k < getCodeCount ∧ mask.getD k 0 ≠ 0 := by
  unfold maskTrueCount
  rw [Finset.card_pos]
  constructor
  · rintro ⟨k, hk⟩
    rw [Finset.mem_filter, Finset.mem_range] at hk
    exact ⟨k, hk⟩
  · rintro ⟨k, hk⟩
    exact ⟨k, by rw [Finset.mem_filter, Finset.mem_range]; exact hk⟩

theorem maskTrueCount_unique (H : List Turn) (c : Code)
    (huniq : ∀ d : Code, d.valid → codeFitsTurnStack d H = true → d = c) :
    maskTrueCount (candidateMask H) ≤ 1 := by
  unfold maskTrueCount
  apply Finset.card_le_one.mpr
  intro a ha b hb
  rw [Finset.mem_filter, Finset.mem_range] at ha hb
  have ha1 : a < 4096 := getCodeCount_eq ▸ ha.1
  have hb1 : b < 4096 := getCodeCount_eq ▸ hb.1
  have ea := huniq _ (nthCode_valid_ord a ha1).1 ((candidateMask_getD_ne_zero H a ha.1).mp ha.2)
  have eb := huniq _ (nthCode_valid_ord b hb1).1 ((candidateMask_getD_ne_zero H b hb.1).mp hb.2)
  exact nthCode_inj a b ha1 hb1 (ea.trans eb.symm)

/-! ## Concrete calls of `nextCode` -/

theorem nextCode_aaaa (past : List Int) :
    nextCode { colors := ![0, 0, 0, 0] } past =
      ⟨true, { colors := ![1, 0, 0, 0] }, 0, past, false⟩ := by
  rw [nextCode_eq]
  simp
  decide

/-- On the last code "hhhh" the loop of `nextCode` resets the four positions
and goes on in the memory after the array. -/
theorem nextCode_hhhh (past : List Int) :
    nextCode { colors := ![7, 7, 7, 7] } past =
      ⟨false, { colors := ![0, 0, 0, 0] }, (nextCodeLoop past 4).2.1,
        (nextCodeLoop past 4).1, (nextCodeLoop past 4).2.2⟩ := by
  rw [nextCode_eq]
  simp
  decide

theorem nextCodeAccesses_hhhh (past : List Int) :
    nextCodeAccesses { colors := ![7, 7, 7, 7] } past =
      nextCodeLoopAccesses past 4 [0, 0, 1, 1, 2, 2, 3, 3] := by
  rw [nextCodeAccesses_eq]
  simp

/-- Away from the last code every access of `nextCode` is inside the array. -/
theorem nextCodeAccesses_in_range (c : Code) (past : List Int)
    (hne : ∃ i : Fin CODE_LENGTH, c.colors i < 7)
    (i : Nat) (hi : i ∈ nextCodeAccesses c past) : i < CODE_LENGTH := by
  show i < 4
  rw [nextCodeAccesses_eq] at hi
  have hall : ∀ k : Fin CODE_LENGTH, k = 0 ∨ k = 1 ∨ k = 2 ∨ k = 3 := by decide
  split_ifs at hi with h0 h1 h2 h3
  · simp at hi; omega
  · simp at hi; omega
  · simp at hi; omega
  · simp at hi; omega
  · exfalso
    obtain ⟨k, hk⟩ := hne
    rcases hall k with rfl | rfl | rfl | rfl
    · exact h0 hk
    · exact h1 hk
    · exact h2 hk
    · exact h3 hk

/-- A call of `nextCode` on a valid code that returns 0 has read
`code->colors[CODE_LENGTH]`, outside the array. -/
theorem nextCode_ret_false_accesses (c : Code) (hc : c.valid) (past : List Int)
    (h : (nextCode c past).ret = false) :
    CODE_LENGTH ∈ nextCodeAccesses c past ∧ CODE_LENGTH ≤ (nextCode c past).i := by
  have hlt := ord_lt c hc
  have hord : ord c = 4095 := by
    by_contra hne
    have := (nextCode_ret_iff c hc past).mpr (by omega)
    rw [h] at this
    exact absurd this (by simp)
  refine ⟨?_, (nextCode_of_last c hc hord past).2⟩
  rw [valid_iff] at hc
  rw [ord_eq] at hord
  rw [nextCodeAccesses_eq]
  split_ifs with h0 h1 h2 h3
  · omega
  · omega
  · omega
  · omega
  · obtain ⟨l, hl⟩ := nextCodeLoopAccesses_append past 4 [0, 0, 1, 1, 2, 2, 3, 3]
    rw [hl]
    simp

theorem nthCode_last : nthCode 4095 = { colors := ![7, 7, 7, 7] } := by
  have hv : Code.valid { colors := ![7, 7, 7, 7] } := by decide
  have ho : ord { colors := ![7, 7, 7, 7] } = 4095 := by rw [ord_eq]; rfl
  rw [← ho]
  exact nthCode_ord _ hv

/-! ## Particular histories -/

/-- Every entry of the candidate mask of the empty history is set. -/
theorem candidateMask_nil : candidateMask [] = List.replicate getCodeCount 1 := by
  rw [List.eq_replicate_iff]
  refine ⟨candidateMask_length [], ?_⟩
  intro b hb
  unfold candidateMask at hb
  rw [List.mem_map] at hb
  obtain ⟨k, _, rfl⟩ := hb
  rfl

theorem maskTrueCount_nil_pos : 0 < maskTrueCount (candidateMask []) := by
  rw [maskTrueCount_pos_iff]
  exact ⟨0, getCodeCount_pos, (candidateMask_getD_ne_zero [] 0 getCodeCount_pos).mpr rfl⟩

theorem positionMatches_eq_sum (a b : Code) :
    positionMatches a b =
      (if a.colors 0 = b.colors 0 then 1 else 0) + (if a.colors 1 = b.colors 1 then 1 else 0) +
      (if a.colors 2 = b.colors 2 then 1 else 0) + (if a.colors 3 = b.colors 3 then 1 else 0) := by
  unfold positionMatches
  rw [Finset.card_filter, Fin.sum_univ_four]

/-- A code whose response to a recorded guess has the recorded `fit` agrees
with the guess at that many positions. -/
theorem positionMatches_of_fits (d : Code) (t : Turn) (h : codeFitsTurn d t = true) :
    (positionMatches d t.code : Int) = t.response.fit := by
  have := ((codeFitsTurn_iff d t).mp h).1
  rw [calcResponse_eq] at this
  exact this

/-- The code "aaaa" is the only code that fits `singleCandidateHistory`. -/
theorem singleCandidateHistory_unique (d : Code)
    (h : codeFitsTurnStack d singleCandidateHistory = true) :
    d = { colors := ![0, 0, 0, 0] } := by
  rw [codeFitsTurnStack_iff] at h
  have h1 := positionMatches_of_fits d _ (h _ (List.mem_cons_self _ _))
  have h2 := positionMatches_of_fits d _
    (h _ (List.mem_cons_of_mem _ (List.mem_cons_self _ _)))
  have h3 := positionMatches_of_fits d _
    (h _ (List.mem_cons_of_mem _ (List.mem_cons_of_mem _ (List.mem_cons_self _ _))))
  have h4 := positionMatches_of_fits d _
    (h _ (List.mem_cons_of_mem _ (List.mem_cons_of_mem _ (List.mem_cons_of_mem _
      (List.mem_cons_self _ _)))))
  rw [positionMatches_eq_sum] at h1 h2 h3 h4
  simp only [Matrix.cons_val_zero, Matrix.cons_val_one, Matrix.head_cons] at h1 h2 h3 h4
  have e2 : (![0, 0, 0, 1] : Fin CODE_LENGTH → Nat) 2 = 0 := rfl
  have e3 : (![0, 0, 0, 1] : Fin CODE_LENGTH → Nat) 3 = 1 := rfl
  have f2 : (![0, 0, 1, 0] : Fin CODE_LENGTH → Nat) 2 = 1 := rfl
  have f3 : (![0, 0, 1, 0] : Fin CODE_LENGTH → Nat) 3 = 0 := rfl
  have g2 : (![0, 1, 0, 0] : Fin CODE_LENGTH → Nat) 2 = 0 := rfl
  have g3 : (![0, 1, 0, 0] : Fin CODE_LENGTH → Nat) 3 = 0 := rfl
  have k2 : (![1, 0, 0, 0] : Fin CODE_LENGTH → Nat) 2 = 0 := rfl
  have k3 : (![1, 0, 0, 0] : Fin CODE_LENGTH → Nat) 3 = 0 := rfl
  simp only [e2, e3, f2, f3, g2, g3, k2, k3] at h1 h2 h3 h4
  have hd : d.colors 0 = 0 ∧ d.colors 1 = 0 ∧ d.colors 2 = 0 ∧ d.colors 3 = 0 := by
    split_ifs at h1 h2 h3 h4 <;> simp at h1 h2 h3 h4 <;> omega
  obtain ⟨d0, d1, d2, d3⟩ := hd
  cases d with | mk cd =>
  congr
  funext i
  have hall : ∀ k : Fin CODE_LENGTH, k = 0 ∨ k = 1 ∨ k = 2 ∨ k = 3 := by decide
  rcases hall i with rfl | rfl | rfl | rfl
  · exact d0
  · exact d1
  · exact d2
  · exact d3

theorem singleCandidateHistory_fits :
    codeFitsTurnStack { colors := ![0, 0, 0, 0] } singleCandidateHistory = true := by decide

theorem session_singleCandidate :
    session { colors := ![0, 0, 0, 0] } singleCandidateCommands = singleCandidateHistory := by
  decide

theorem maskTrueCount_singleCandidate :
    maskTrueCount (candidateMask singleCandidateHistory) = 1 := by
  have h1 := maskTrueCount_unique singleCandidateHistory { colors := ![0, 0, 0, 0] }
    (fun d _ h => singleCandidateHistory_unique d h)
  have h2 : 0 < maskTrueCount (candidateMask singleCandidateHistory) := by
    rw [maskTrueCount_pos_iff]
    refine ⟨0, getCodeCount_pos, ?_⟩
    rw [candidateMask_getD_ne_zero _ 0 getCodeCount_pos, nthCode_zero]
    exact singleCandidateHistory_fits
  omega


/-! ## The search step on particular masks -/

/-- On the candidate mask of a history that exactly one code `c` fits, and with
the score 1 in every iteration, the search steps keep `c`, with the key 1. -/
theorem searchScan_of_unique (H : List Turn) (c : Code) (hc : c.valid)
    (hfit : codeFitsTurnStack c H = true)
    (huniq : ∀ d : Code, d.valid → codeFitsTurnStack d H = true → d = c) (c0 : Code) :
    (List.range getCodeCount).foldl
        (fun st j => calcBestGuessUpdate (candidateMask H) st (nthCode j) 1)
        (UINT_MAX, c0, 0) = (1, c, getCodeCount) := by
  have hbit : ∀ j, j < getCodeCount → (candidateMask H).getD j 0 ≤ 1 := by
    intro j hj
    rw [candidateMask_getD H j hj]
    split_ifs <;> omega
  have hoc : ord c < getCodeCount := by rw [getCodeCount_eq]; exact ord_lt c hc
  have hmc : (candidateMask H).getD (ord c) 0 = 1 := by
    rw [candidateMask_getD H _ hoc, nthCode_ord c hc, hfit]
    rfl
  obtain ⟨k, hk, hr, hmin, _⟩ := searchScan_argmin (candidateMask H) (fun _ => 1) c0
    getCodeCount getCodeCount_pos (fun j hj => ⟨(by decide : (1 : Nat) ≤ 4096), hbit j hj, fun _ => le_refl 1⟩)
  have hkey := hmin (ord c) hoc
  simp only [hmc] at hkey
  have hb := hbit k hk
  have hmk : (candidateMask H).getD k 0 ≠ 0 := by
    intro hz
    rw [hz] at hkey
    omega
  have hk1 : k < 4096 := getCodeCount_eq ▸ hk
  have hck : nthCode k = c :=
    huniq _ (nthCode_valid_ord k hk1).1 ((candidateMask_getD_ne_zero H k hk).mp hmk)
  have hone : (candidateMask H).getD k 0 = 1 := by omega
  rw [hr, hck, hone]

/-! ## The claims

Codes are written with the letters of the command line: `a` is the symbol 0,
`b` is 1, ..., `h` is 7, so that "abcd" is the code with colors 0, 1, 2, 3. -/

/-- C1: for valid codes `input` and `hidden`, `calcResponse` returns as `fit` the
number of positions at which the two codes agree, and as `misplaced` the sum over
the symbols `s` in `[0, COLOR_COUNT)` of the smaller of the two occurrence counts
of `s`, minus `fit`.  Moreover "abcd" against "abcd" gives (4, 0), "dcba" against
"abcd" gives (0, 4) and "aabb" against "abab" gives (2, 2). -/
theorem calcResponse_fit_misplaced :
    (∀ input hidden : Code, input.valid → hidden.valid →
      (calcResponse input hidden).fit =
        ((Finset.univ.filter
          (fun i : Fin CODE_LENGTH => input.colors i = hidden.colors i)).card : Int) ∧
      (calcResponse input hidden).misplaced =
        ((∑ s in Finset.range COLOR_COUNT, min (input.count s) (hidden.count s) : Nat) : Int)
          - (calcResponse input hidden).fit) ∧
    calcResponse { colors := ![0, 1, 2, 3] } { colors := ![0, 1, 2, 3] } = ⟨4, 0⟩ ∧
    calcResponse { colors := ![3, 2, 1, 0] } { colors := ![0, 1, 2, 3] } = ⟨0, 4⟩ ∧
    calcResponse { colors := ![0, 0, 1, 1] } { colors := ![0, 1, 0, 1] } = ⟨2, 2⟩ := by
  refine ⟨?_, by decide, by decide, by decide⟩
  intro input hidden _ _
  rw [calcResponse_eq]
  exact ⟨rfl, rfl⟩

/-- C1, at "aabb" against "abab": both codes are valid, two positions agree, and
the symbol counts (2, 2 against 2, 2) intersect in 4 symbols. -/
theorem calcResponse_fit_misplaced_witness :
    (Code.valid { colors := ![0, 0, 1, 1] } ∧ Code.valid { colors := ![0, 1, 0, 1] }) ∧
    ((calcResponse { colors := ![0, 0, 1, 1] } { colors := ![0, 1, 0, 1] }).fit =
        ((Finset.univ.filter (fun i : Fin CODE_LENGTH =>
          (![0, 0, 1, 1] : Fin CODE_LENGTH → Nat) i = (![0, 1, 0, 1] : Fin CODE_LENGTH → Nat) i)).card
            : Int) ∧
      (calcResponse { colors := ![0, 0, 1, 1] } { colors := ![0, 1, 0, 1] }).misplaced =
        ((∑ s in Finset.range COLOR_COUNT,
            min (Code.count { colors := ![0, 0, 1, 1] } s)
              (Code.count { colors := ![0, 1, 0, 1] } s) : Nat) : Int)
          - (calcResponse { colors := ![0, 0, 1, 1] } { colors := ![0, 1, 0, 1] }).fit) :=
  ⟨⟨by decide, by decide⟩,
    calcResponse_fit_misplaced.1 { colors := ![0, 0, 1, 1] } { colors := ![0, 1, 0, 1] }
      (by decide) (by decide)⟩

/-- C2: `codeFitsTurnStack c H` is true exactly when, for every turn `t` of `H`,
`calcResponse c t.code` has the `fit` and the `misplaced` recorded in `t`; it is
true for the empty history; and it gives the same answer on every reordering of
`H`. -/
theorem codeFitsTurnStack_consistent (c : Code) (H : List Turn) :
    (codeFitsTurnStack c H = true ↔
      ∀ t ∈ H, (calcResponse c t.code).fit = t.response.fit ∧
        (calcResponse c t.code).misplaced = t.response.misplaced) ∧
    codeFitsTurnStack c [] = true ∧
    ∀ H1 : List Turn, H.Perm H1 → codeFitsTurnStack c H1 = codeFitsTurnStack c H := by
  refine ⟨?_, rfl, fun H1 h => codeFitsTurnStack_perm c h⟩
  rw [codeFitsTurnStack_iff]
  exact forall_congr' (fun t => imp_congr_right (fun _ => codeFitsTurn_iff c t))

/-- C2, at the code "abcd" and a history of two turns taken in both orders. -/
theorem codeFitsTurnStack_consistent_witness :
    List.Perm
      [({ code := { colors := ![0, 0, 1, 1] }, response := ⟨1, 1⟩ } : Turn),
        { code := { colors := ![2, 3, 4, 5] }, response := ⟨0, 2⟩ }]
      [{ code := { colors := ![2, 3, 4, 5] }, response := ⟨0, 2⟩ },
        { code := { colors := ![0, 0, 1, 1] }, response := ⟨1, 1⟩ }] ∧
    codeFitsTurnStack { colors := ![0, 1, 2, 3] }
      [{ code := { colors := ![2, 3, 4, 5] }, response := ⟨0, 2⟩ },
        { code := { colors := ![0, 0, 1, 1] }, response := ⟨1, 1⟩ }] =
    codeFitsTurnStack { colors := ![0, 1, 2, 3] }
      [{ code := { colors := ![0, 0, 1, 1] }, response := ⟨1, 1⟩ },
        { code := { colors := ![2, 3, 4, 5] }, response := ⟨0, 2⟩ }] :=
  ⟨List.Perm.swap _ _ _,
    (codeFitsTurnStack_consistent { colors := ![0, 1, 2, 3] }
      [{ code := { colors := ![0, 0, 1, 1] }, response := ⟨1, 1⟩ },
        { code := { colors := ![2, 3, 4, 5] }, response := ⟨0, 2⟩ }]).2.2 _
      (List.Perm.swap _ _ _)⟩

/-- C3, on the code: the source determines no value that `evalGuess` returns,
whatever the guess, the history and the mask are, and so not the maximum C3
describes.  When the first mask entry is set (as in the call `calcBestGuess`
makes on the empty history: guess "aaaa", every entry 1), the first call of
`countPossibleCodes` counts over all `getCodeCount` codes, and its last call of
`nextCode`, on "hhhh", reads outside the array: `evalGuess` is lost with
`result = 0` and `i = 0`.  When no entry is set, `evalGuess` itself runs through
all codes with `result = 0`, and its own last call of `nextCode` reads outside
the array.  What `countPossibleCodes` has counted when it is lost is the number
of set entries whose code fits the stack; and the recurrence of the loop of
`evalGuess` (`result` replaced by a larger count, in the iterations whose mask
entry is set), run over these counts, does yield the maximum C3 describes. -/
theorem evalGuess_out_of_range :
    (∀ (g : Code) (H : List Turn) (m : List Nat) (past : List Int),
      ∃ st, evalGuess g H m past = Outcome.outOfRange st) ∧
    (∀ (g : Code) (H : List Turn) (m : List Nat) (past : List Int), m.getD 0 0 ≠ 0 →
      evalGuess g H m past = Outcome.outOfRange (0, 0)) ∧
    (∀ past : List Int,
      evalGuess { colors := ![0, 0, 0, 0] } [] (List.replicate getCodeCount 1) past =
        Outcome.outOfRange (0, 0)) ∧
    (∀ (g : Code) (H : List Turn) (past : List Int),
      evalGuess g H (List.replicate getCodeCount 0) past =
        Outcome.outOfRange (0, getCodeCount)) ∧
    (∀ (H : List Turn) (m : List Nat) (past : List Int),
      countPossibleCodes H m past =
        Outcome.outOfRange (((Finset.range getCodeCount).filter (fun k =>
          m.getD k 0 ≠ 0 ∧ codeFitsTurnStack (nthCode k) H = true)).card, getCodeCount)) ∧
    ∀ (g : Code) (H : List Turn) (m : List Nat),
      (List.range getCodeCount).foldl
          (fun (st : Nat × Nat) k =>
            if m.getD st.2 0 ≠ 0 then
              (evalGuessUpdate st.1
                ((Finset.range getCodeCount).filter (fun j =>
                  m.getD j 0 ≠ 0 ∧
                  codeFitsTurnStack (nthCode j)
                    ({ code := g, response := calcResponse g (nthCode k) } :: H) = true)).card,
                st.2 + 1)
            else (st.1, st.2 + 1)) (0, 0) =
        (((Finset.range getCodeCount).filter (fun k => m.getD k 0 ≠ 0)).sup
          (fun k => ((Finset.range getCodeCount).filter (fun j =>
            m.getD j 0 ≠ 0 ∧
            codeFitsTurnStack (nthCode j)
              ({ code := g, response := calcResponse g (nthCode k) } :: H) = true)).card),
          getCodeCount) := by
  refine ⟨evalGuess_lost, evalGuess_of_first_set, ?_, ?_, countPossibleCodes_eq,
    fun g H m => evalScan m _ getCodeCount⟩
  · intro past
    apply evalGuess_of_first_set
    rw [List.getD_eq_getElem?_getD, List.getElem?_replicate]
    simp [getCodeCount_pos]
  · intro g H past
    apply evalGuess_of_mask_clear
    intro k
    rw [List.getD_eq_getElem?_getD, List.getElem?_replicate]
    split_ifs <;> rfl

/-- C4, on the code: the source determines no code that `calcBestGuess` returns,
whatever the history is.  Its first loop writes the candidate mask, and the
call of `nextCode` on the last code "hhhh" that should end the loop reads
outside the array; neither the second loop nor `return bestGuess` is reached by
defined behaviour.  Taken on its own, the second loop is lost in its first
iteration, because `evalGuess` has no defined result, so that no key is
computed or compared.  The search step itself is as C4 says: run over the codes
with scores `e j` within the bounds of C19, it keeps the first code whose key
`2 * e j - possibleCodeBools[j]` is minimal. -/
theorem calcBestGuess_out_of_range :
    (∀ (H : List Turn) (junk : Nat → Nat) (past : List Int),
      calcBestGuess H junk past = Outcome.outOfRange (candidateMask H, getCodeCount)) ∧
    (∀ (H : List Turn) (junk : Nat → Nat) (past : List Int) (g : Code),
      calcBestGuess H junk past ≠ Outcome.returned g) ∧
    (∀ (H : List Turn) (mask : List Nat) (past : List Int),
      calcBestGuessSearch H mask past = Outcome.outOfRange (mask, 0)) ∧
    (∀ past : List Int,
      calcBestGuess [] (fun _ => 0) past =
        Outcome.outOfRange (List.replicate getCodeCount 1, getCodeCount)) ∧
    ∀ (mask : List Nat) (e : Nat → Nat) (c0 : Code),
      (∀ j, j < getCodeCount →
        e j ≤ 4096 ∧ mask.getD j 0 ≤ 1 ∧ (mask.getD j 0 ≠ 0 → 1 ≤ e j)) →
      ∃ k, k < getCodeCount ∧
        (List.range getCodeCount).foldl
            (fun st j => calcBestGuessUpdate mask st (nthCode j) (e j)) (UINT_MAX, c0, 0) =
          (e k * 2 - mask.getD k 0, nthCode k, getCodeCount) ∧
        (∀ j, j < getCodeCount → e k * 2 - mask.getD k 0 ≤ e j * 2 - mask.getD j 0) ∧
        ∀ j, j < k → e k * 2 - mask.getD k 0 < e j * 2 - mask.getD j 0 := by
  refine ⟨calcBestGuess_eq, ?_, calcBestGuessSearch_eq, ?_,
    fun mask e c0 hb => searchScan_argmin mask e c0 getCodeCount getCodeCount_pos hb⟩
  · intro H junk past g h
    rw [calcBestGuess_eq] at h
    exact Outcome.noConfusion h
  · intro past
    rw [calcBestGuess_eq, candidateMask_nil]

/-- C5, on the code: the first loop of `calcBestGuess` writes one entry per
iteration, `getCodeCount = 4096 = COLOR_COUNT ^ CODE_LENGTH` entries in all, and
entry `i` is set exactly when the `i`-th code of the enumeration fits the
history, whatever the allocated buffer held.  But the loop is not ended there
by defined behaviour: with `codeIndex = getCodeCount` its call of `nextCode` on
the last code "hhhh" reads outside the array, so that the source does not
settle that the writing stops after `getCodeCount` entries. -/
theorem calcBestGuessMask_out_of_range :
    (∀ (H : List Turn) (junk : Nat → Nat) (past : List Int),
      calcBestGuessMask H junk past = Outcome.outOfRange (candidateMask H, getCodeCount)) ∧
    (∀ (H : List Turn) (junk : Nat → Nat) (past : List Int) (r : List Nat × Nat),
      calcBestGuessMask H junk past ≠ Outcome.returned r) ∧
    getCodeCount = 4096 ∧ COLOR_COUNT ^ CODE_LENGTH = getCodeCount ∧
    (∀ H : List Turn, (candidateMask H).length = getCodeCount) ∧
    (∀ (H : List Turn) (i : Nat), i < getCodeCount →
      ((candidateMask H).getD i 0 ≠ 0 ↔ codeFitsTurnStack (nthCode i) H = true)) ∧
    ∀ past : List Int,
      calcBestGuessMask [] (fun _ => 0) past =
        Outcome.outOfRange (List.replicate getCodeCount 1, getCodeCount) := by
  refine ⟨calcBestGuessMask_eq, ?_, getCodeCount_eq, by rw [getCodeCount_eq]; rfl,
    candidateMask_length, candidateMask_getD_ne_zero, ?_⟩
  · intro H junk past r h
    rw [calcBestGuessMask_eq] at h
    exact Outcome.noConfusion h
  · intro past
    rw [calcBestGuessMask_eq, candidateMask_nil]

/-- C6, on the code: from the all-zero code the enumeration visits
`getCodeCount = 4096 = COLOR_COUNT ^ CODE_LENGTH` codes, no two of them equal,
and a code is among them exactly when all its symbols lie in
`[0, COLOR_COUNT)`.  But the sequence is not ended by a call of `nextCode` that
returns 0 as defined behaviour: the call on the last code visited, "hhhh", reads
`code->colors[CODE_LENGTH]`, and on a valid code `nextCode` returns 0 only after
such a read. -/
theorem visitedCodes_out_of_range :
    (∀ past : List Int,
      visitedCodes past = Outcome.outOfRange ((List.range getCodeCount).map nthCode)) ∧
    ((List.range getCodeCount).map nthCode).length = getCodeCount ∧ getCodeCount = 4096 ∧
    COLOR_COUNT ^ CODE_LENGTH = 4096 ∧
    ((List.range getCodeCount).map nthCode).Nodup ∧
    (∀ c : Code, c ∈ (List.range getCodeCount).map nthCode ↔ c.valid) ∧
    nthCode 4095 = { colors := ![7, 7, 7, 7] } ∧
    (∀ past : List Int, CODE_LENGTH ∈ nextCodeAccesses (nthCode 4095) past) ∧
    ∀ (c : Code) (past : List Int), c.valid → (nextCode c past).ret = false →
      CODE_LENGTH ∈ nextCodeAccesses c past := by
  refine ⟨visitedCodes_eq, length_map_nthCode, getCodeCount_eq, rfl, nodup_map_nthCode,
    mem_map_nthCode, nthCode_last, ?_, ?_⟩
  · intro past
    have hv := (nthCode_valid_ord 4095 (by omega)).1
    have ho := (nthCode_valid_ord 4095 (by omega)).2
    exact (nextCode_ret_false_accesses _ hv past (nextCode_of_last _ hv ho past).1).1
  · intro c past hc h
    exact (nextCode_ret_false_accesses c hc past h).1

/-- C7: on valid codes `calcResponse a b` and `calcResponse b a` have the same
`fit` and the same `misplaced`; repeated symbols are allowed. -/
theorem calcResponse_symm (a b : Code) (_ha : a.valid) (_hb : b.valid) :
    (calcResponse a b).fit = (calcResponse b a).fit ∧
    (calcResponse a b).misplaced = (calcResponse b a).misplaced := by
  rw [calcResponse_eq, calcResponse_eq, positionMatches_comm a b, colorMatches_comm a b]
  exact ⟨rfl, rfl⟩

/-- C7, at "aabb" and "abab", two codes with repeated symbols. -/
theorem calcResponse_symm_witness :
    (Code.valid { colors := ![0, 0, 1, 1] } ∧ Code.valid { colors := ![0, 1, 0, 1] }) ∧
    (calcResponse { colors := ![0, 0, 1, 1] } { colors := ![0, 1, 0, 1] }).fit =
      (calcResponse { colors := ![0, 1, 0, 1] } { colors := ![0, 0, 1, 1] }).fit ∧
    (calcResponse { colors := ![0, 0, 1, 1] } { colors := ![0, 1, 0, 1] }).misplaced =
      (calcResponse { colors := ![0, 1, 0, 1] } { colors := ![0, 0, 1, 1] }).misplaced :=
  ⟨⟨by decide, by decide⟩,
    calcResponse_symm { colors := ![0, 0, 1, 1] } { colors := ![0, 1, 0, 1] }
      (by decide) (by decide)⟩

/-- C8: on valid codes the response satisfies `0 <= fit <= CODE_LENGTH`,
`0 <= misplaced <= CODE_LENGTH` and `fit + misplaced <= CODE_LENGTH`; in
particular `misplaced = matchingColors - fit` is not negative. -/
theorem calcResponse_bounds (a b : Code) (ha : a.valid) (_hb : b.valid) :
    0 ≤ (calcResponse a b).fit ∧ (calcResponse a b).fit ≤ CODE_LENGTH ∧
    0 ≤ (calcResponse a b).misplaced ∧ (calcResponse a b).misplaced ≤ CODE_LENGTH ∧
    (calcResponse a b).fit + (calcResponse a b).misplaced ≤ CODE_LENGTH := by
  rw [calcResponse_eq]
  have h1 := positionMatches_le_colorMatches a b ha
  have h2 := colorMatches_le a b
  simp only
  refine ⟨?_, ?_, ?_, ?_, ?_⟩ <;> omega

/-- C8, at "aabb" against "abab". -/
theorem calcResponse_bounds_witness :
    (Code.valid { colors := ![0, 0, 1, 1] } ∧ Code.valid { colors := ![0, 1, 0, 1] }) ∧
    (calcResponse { colors := ![0, 0, 1, 1] } { colors := ![0, 1, 0, 1] }).fit +
      (calcResponse { colors := ![0, 0, 1, 1] } { colors := ![0, 1, 0, 1] }).misplaced
        ≤ CODE_LENGTH :=
  ⟨⟨by decide, by decide⟩,
    (calcResponse_bounds { colors := ![0, 0, 1, 1] } { colors := ![0, 1, 0, 1] }
      (by decide) (by decide)).2.2.2.2⟩

/-- C9: a valid code against itself gives `fit = CODE_LENGTH` and
`misplaced = 0`; and for valid codes `a`, `b` the response has
`fit = CODE_LENGTH` exactly when `a = b`. -/
theorem calcResponse_win (a b : Code) (ha : a.valid) (_hb : b.valid) :
    (calcResponse a a).fit = CODE_LENGTH ∧ (calcResponse a a).misplaced = 0 ∧
    ((calcResponse a b).fit = CODE_LENGTH ↔ a = b) := by
  have hself : calcResponse a a = ⟨(CODE_LENGTH : Nat), 0⟩ := by
    rw [calcResponse_eq, positionMatches_self, colorMatches_self a ha, sub_self]
  refine ⟨by rw [hself], by rw [hself], ?_⟩
  constructor
  · intro h
    rw [calcResponse_eq] at h
    have h4 : (positionMatches a b : Int) = (CODE_LENGTH : Nat) := h
    exact eq_of_positionMatches a b (by exact_mod_cast h4)
  · intro h
    subst h
    rw [hself]

/-- C9, at "abcd" against "abce": the guess is not the secret and `fit` is not
`CODE_LENGTH`, while "abcd" against itself gives (4, 0). -/
theorem calcResponse_win_witness :
    (Code.valid { colors := ![0, 1, 2, 3] } ∧ Code.valid { colors := ![0, 1, 2, 4] }) ∧
    (calcResponse { colors := ![0, 1, 2, 3] } { colors := ![0, 1, 2, 3] }).fit = CODE_LENGTH ∧
    (calcResponse { colors := ![0, 1, 2, 3] } { colors := ![0, 1, 2, 3] }).misplaced = 0 ∧
    ((calcResponse { colors := ![0, 1, 2, 3] } { colors := ![0, 1, 2, 4] }).fit = CODE_LENGTH ↔
      ({ colors := ![0, 1, 2, 3] } : Code) = { colors := ![0, 1, 2, 4] }) :=
  ⟨⟨by decide, by decide⟩,
    calcResponse_win { colors := ![0, 1, 2, 3] } { colors := ![0, 1, 2, 4] }
      (by decide) (by decide)⟩

/-- C11: every code that fits the history with the turn `t` pushed on it fits
the history `H` itself; hence the candidate mask after the push has at most as
many entries set as the mask before.  These masks are the ones the first loop of
`calcBestGuess` has written into its buffer when it makes its last call of
`nextCode`. -/
theorem pushTurn_shrinks_candidates (H : List Turn) (t : Turn) :
    (∀ c : Code, codeFitsTurnStack c (pushTurn H t) = true → codeFitsTurnStack c H = true) ∧
    maskTrueCount (candidateMask (pushTurn H t)) ≤ maskTrueCount (candidateMask H) ∧
    (∀ (junk : Nat → Nat) (past : List Int),
      calcBestGuessMask (pushTurn H t) junk past =
        Outcome.outOfRange (candidateMask (pushTurn H t), getCodeCount)) ∧
    ∀ (junk : Nat → Nat) (past : List Int),
      calcBestGuessMask H junk past = Outcome.outOfRange (candidateMask H, getCodeCount) :=
  ⟨fun c h => codeFitsTurnStack_of_push c t H h, maskTrueCount_push_le H t,
    calcBestGuessMask_eq (pushTurn H t), calcBestGuessMask_eq H⟩

/-- C11, at the empty history, the turn ("aaaa", (0, 0)) and the code "bbbb",
which fits the pushed turn. -/
theorem pushTurn_shrinks_candidates_witness :
    codeFitsTurnStack { colors := ![1, 1, 1, 1] }
        (pushTurn [] { code := { colors := ![0, 0, 0, 0] }, response := ⟨0, 0⟩ }) = true ∧
      codeFitsTurnStack { colors := ![1, 1, 1, 1] } [] = true :=
  ⟨by decide,
    (pushTurn_shrinks_candidates []
      { code := { colors := ![0, 0, 0, 0] }, response := ⟨0, 0⟩ }).1
      { colors := ![1, 1, 1, 1] } (by decide)⟩

/-- C12: `readCode(str, len, code)` returns 1 exactly when `len` is
`CODE_LENGTH` and each of the first `CODE_LENGTH` characters of `str` lies in
`['a', 'a' + COLOR_COUNT)`, that is `'a'..'h'`; on success `code.colors[i]` is
`str[i] - 'a'` at every position, a symbol below `COLOR_COUNT`. -/
theorem readCode_success_iff (str : List Nat) (len : Nat) (code : Code) :
    ((readCode str len code).1 = true ↔
      len = CODE_LENGTH ∧
        ∀ i : Fin CODE_LENGTH, CHAR_a ≤ str.getD i 0 ∧ str.getD i 0 < CHAR_a + COLOR_COUNT) ∧
    ((readCode str len code).1 = true →
      (∀ i : Fin CODE_LENGTH, (readCode str len code).2.colors i = str.getD i 0 - CHAR_a) ∧
      (readCode str len code).2.valid) ∧
    CHAR_a = Char.toNat 'a' ∧ CHAR_a + COLOR_COUNT - 1 = Char.toNat 'h' := by
  have hspec := readCode_spec str len code
  refine ⟨hspec.1, ?_, rfl, rfl⟩
  intro hok
  refine ⟨hspec.2 hok, ?_⟩
  intro i
  rw [hspec.2 hok i]
  have := (hspec.1.mp hok).2 i
  omega

/-- C12, at the text "abcd" of length 4: it is accepted and decoded to the
symbols 0, 1, 2, 3. -/
theorem readCode_success_iff_witness :
    (readCode [97, 98, 99, 100] 4 localCode).1 = true ∧
    (∀ i : Fin CODE_LENGTH,
      (readCode [97, 98, 99, 100] 4 localCode).2.colors i =
        ([97, 98, 99, 100] : List Nat).getD i 0 - CHAR_a) ∧
    (readCode [97, 98, 99, 100] 4 localCode).2.valid :=
  ⟨by decide, (readCode_success_iff [97, 98, 99, 100] 4 localCode).2.1 (by decide)⟩

/-- C13: a text `str` of exactly `CODE_LENGTH` characters, each in
`['a', 'a' + COLOR_COUNT)`, is accepted by `readCode`, and printing the decoded
code with `printCodeLetters` gives `str` back; and decoding the letters printed
for a valid code `c` gives `c` back. -/
theorem readCode_roundtrip (str : List Nat) (c code : Code)
    (hlen : str.length = CODE_LENGTH)
    (hstr : ∀ i : Fin CODE_LENGTH,
      CHAR_a ≤ str.getD i 0 ∧ str.getD i 0 < CHAR_a + COLOR_COUNT)
    (hc : c.valid) :
    (readCode str str.length code).1 = true ∧
    printCodeLetters (readCode str str.length code).2 = str ∧
    readCode (printCodeLetters c) (printCodeLetters c).length code = (true, c) :=
  ⟨(printCodeLetters_readCode str code hlen hstr).1,
    (printCodeLetters_readCode str code hlen hstr).2,
    readCode_printCodeLetters c code hc⟩

/-- C13, at the text "abcd" and the code "hgfe". -/
theorem readCode_roundtrip_witness :
    (([97, 98, 99, 100] : List Nat).length = CODE_LENGTH ∧
      (∀ i : Fin CODE_LENGTH, CHAR_a ≤ ([97, 98, 99, 100] : List Nat).getD i 0 ∧
        ([97, 98, 99, 100] : List Nat).getD i 0 < CHAR_a + COLOR_COUNT) ∧
      Code.valid { colors := ![7, 6, 5, 4] }) ∧
    ((readCode [97, 98, 99, 100] ([97, 98, 99, 100] : List Nat).length localCode).1 = true ∧
      printCodeLetters
        (readCode [97, 98, 99, 100] ([97, 98, 99, 100] : List Nat).length localCode).2 =
          [97, 98, 99, 100] ∧
      readCode (printCodeLetters { colors := ![7, 6, 5, 4] })
        (printCodeLetters { colors := ![7, 6, 5, 4] }).length localCode =
          (true, { colors := ![7, 6, 5, 4] })) :=
  ⟨⟨rfl, by decide, by decide⟩,
    readCode_roundtrip [97, 98, 99, 100] { colors := ![7, 6, 5, 4] } localCode rfl
      (by decide) (by decide)⟩

/-- C14: `pushTurn` followed by `popTurn` gives back the history `H`, with the
same turns in the same order; hence the candidate mask computed after the undo
is the mask computed before the push, and the first loop of `calcBestGuess`
writes the same buffer, whatever the two freshly allocated buffers held. -/
theorem popTurn_pushTurn_restores (H : List Turn) (t : Turn) :
    popTurn (pushTurn H t) = some H ∧
    ∀ H1 : List Turn, popTurn (pushTurn H t) = some H1 →
      H1 = H ∧ candidateMask H1 = candidateMask H ∧
      ∀ (junk junk1 : Nat → Nat) (past past1 : List Int),
        calcBestGuessMask H1 junk1 past1 = calcBestGuessMask H junk past := by
  refine ⟨popTurn_pushTurn H t, ?_⟩
  intro H1 h
  rw [popTurn_pushTurn] at h
  have e : H = H1 := Option.some.inj h
  subst e
  refine ⟨rfl, rfl, ?_⟩
  intro junk junk1 past past1
  rw [calcBestGuessMask_eq, calcBestGuessMask_eq]

/-- C14, at the history holding the turn ("aabb", (1, 1)) and the pushed turn
("abcd", (0, 2)). -/
theorem popTurn_pushTurn_restores_witness :
    popTurn (pushTurn [{ code := { colors := ![0, 0, 1, 1] }, response := ⟨1, 1⟩ }]
        { code := { colors := ![0, 1, 2, 3] }, response := ⟨0, 2⟩ }) =
      some [{ code := { colors := ![0, 0, 1, 1] }, response := ⟨1, 1⟩ }] ∧
    candidateMask [{ code := { colors := ![0, 0, 1, 1] }, response := ⟨1, 1⟩ }] =
      candidateMask [{ code := { colors := ![0, 0, 1, 1] }, response := ⟨1, 1⟩ }] :=
  ⟨rfl,
    ((popTurn_pushTurn_restores [{ code := { colors := ![0, 0, 1, 1] }, response := ⟨1, 1⟩ }]
      { code := { colors := ![0, 1, 2, 3] }, response := ⟨0, 2⟩ }).2 _ rfl).2.1⟩

/-- C15 fails as stated: from "aaaa" `nextCode` returns 1 and produces "baaa",
while "aaab" is a valid code that is lexicographically greater than "aaaa" and
lexicographically smaller than "baaa" when position 0 is compared first; so
"baaa" is not the least code lexicographically greater than "aaaa". -/
theorem nextCode_not_lex_least :
    Code.valid { colors := ![0, 0, 0, 0] } ∧
    (nextCode { colors := ![0, 0, 0, 0] } []).ret = true ∧
    (nextCode { colors := ![0, 0, 0, 0] } []).code = { colors := ![1, 0, 0, 0] } ∧
    Code.valid { colors := ![0, 0, 0, 1] } ∧
    lexLt { colors := ![0, 0, 0, 0] } { colors := ![0, 0, 0, 1] } ∧
    lexLt { colors := ![0, 0, 0, 1] } (nextCode { colors := ![0, 0, 0, 0] } []).code ∧
    ¬ (∀ d : Code, d.valid → lexLt { colors := ![0, 0, 0, 0] } d →
        d = (nextCode { colors := ![0, 0, 0, 0] } []).code ∨
        lexLt (nextCode { colors := ![0, 0, 0, 0] } []).code d) := by
  rw [nextCode_aaaa]
  refine ⟨by decide, rfl, rfl, by decide, by decide, by decide, ?_⟩
  intro h
  have := h { colors := ![0, 0, 0, 1] } (by decide) (by decide)
  revert this
  decide

/-- C15, amended: the enumeration order is the lexicographic order of the symbol
sequences read from the last position down to position 0 (position 0 is the
least significant): for every valid code `c` for which `nextCode` returns 1,
whatever the memory after the array holds, the code it produces is valid,
greater than `c` in that order, and the least such code. -/
theorem nextCode_colex_successor (c : Code) (hc : c.valid) (past : List Int)
    (h : (nextCode c past).ret = true) :
    (nextCode c past).code.valid ∧ colexLt c (nextCode c past).code ∧
      ∀ d : Code, d.valid → colexLt c d →
        d = (nextCode c past).code ∨ colexLt (nextCode c past).code d :=
  nextCode_colex_least c hc past h

/-- C15 amended, at "aaaa": `nextCode` returns 1 and "baaa" is the successor. -/
theorem nextCode_colex_successor_witness :
    (Code.valid { colors := ![0, 0, 0, 0] } ∧
      (nextCode { colors := ![0, 0, 0, 0] } []).ret = true) ∧
    ((nextCode { colors := ![0, 0, 0, 0] } []).code.valid ∧
      colexLt { colors := ![0, 0, 0, 0] } (nextCode { colors := ![0, 0, 0, 0] } []).code ∧
      ∀ d : Code, d.valid → colexLt { colors := ![0, 0, 0, 0] } d →
        d = (nextCode { colors := ![0, 0, 0, 0] } []).code ∨
        colexLt (nextCode { colors := ![0, 0, 0, 0] } []).code d) :=
  ⟨⟨by decide, congrArg NextCodeResult.ret (nextCode_aaaa [])⟩,
    nextCode_colex_successor { colors := ![0, 0, 0, 0] } (by decide) []
      (congrArg NextCodeResult.ret (nextCode_aaaa []))⟩

/-- C16, on the code: with `ord c` the little-endian base-`COLOR_COUNT` reading
of `c`, on a valid code `c` with `ord c < COLOR_COUNT ^ CODE_LENGTH - 1` the
function `nextCode` returns 1 and leaves a valid code of ordinal `ord c + 1`,
all its accesses inside the array; so the code visited in iteration `k` has
ordinal `k`, the index at which the loops read the mask.  But on the last code
`nextCode` does not just return 0: it returns 0 only after the loop condition
has read `code->colors[CODE_LENGTH]`, outside the array, and the loop goes on
there for as long as it finds `char`s of at least `COLOR_COUNT - 1`.  With the
`char`s 9, 100, 3 after the array it resets two of them and stops at `i = 6`;
with no accessible memory after the array the read faults.  Hence
`countPossibleCodes` counts over the `getCodeCount` codes and has no defined
result. -/
theorem nextCode_last_out_of_range :
    (∀ c : Code, ord c = ∑ i : Fin CODE_LENGTH, c.colors i * COLOR_COUNT ^ (i : Nat)) ∧
    (∀ (c : Code) (past : List Int), c.valid → ord c < COLOR_COUNT ^ CODE_LENGTH - 1 →
      (nextCode c past).ret = true ∧ (nextCode c past).code.valid ∧
        ord (nextCode c past).code = ord c + 1 ∧ (nextCode c past).i < CODE_LENGTH ∧
        (nextCode c past).past = past ∧ (nextCode c past).fault = false) ∧
    (∀ k, k < getCodeCount → (nthCode k).valid ∧ ord (nthCode k) = k) ∧
    (∀ (c : Code) (past : List Int), c.valid →
      (∀ i : Fin CODE_LENGTH, c.colors i = COLOR_COUNT - 1) →
      CODE_LENGTH ∈ nextCodeAccesses c past ∧ CODE_LENGTH ≤ (nextCode c past).i) ∧
    (∀ (c : Code) (past : List Int), c.valid → (nextCode c past).ret = false →
      CODE_LENGTH ∈ nextCodeAccesses c past ∧ CODE_LENGTH ≤ (nextCode c past).i) ∧
    nextCode { colors := ![7, 7, 7, 7] } [9, 100, 3] =
      ⟨false, { colors := ![0, 0, 0, 0] }, 6, [0, 0, 3], false⟩ ∧
    nextCode { colors := ![7, 7, 7, 7] } [] =
      ⟨false, { colors := ![0, 0, 0, 0] }, 4, [], true⟩ ∧
    ∀ (H : List Turn) (m : List Nat) (past : List Int),
      countPossibleCodes H m past =
        Outcome.outOfRange (((Finset.range getCodeCount).filter (fun k =>
          m.getD k 0 ≠ 0 ∧ codeFitsTurnStack (nthCode k) H = true)).card, getCodeCount) := by
  refine ⟨fun _ => rfl, fun c past hc h => nextCode_of_lt c hc h past, ?_, ?_,
    fun c past hc h => nextCode_ret_false_accesses c hc past h, ?_, ?_, countPossibleCodes_eq⟩
  · intro k hk
    exact nthCode_valid_ord k (getCodeCount_eq ▸ hk)
  · intro c past hc hlast
    have hord := (ord_last_iff c hc).mpr hlast
    exact nextCode_ret_false_accesses c hc past (nextCode_of_last c hc hord past).1
  · rw [nextCode_hhhh]
    decide
  · rw [nextCode_hhhh]
    decide

/-- C17 fails on the code: on the last code "hhhh", which is valid, the loop
condition of `nextCode` evaluates `code->colors[4]`, an index that is not below
`CODE_LENGTH`, before the function returns 0, whatever the memory after the
array holds.  When the `char` found there is below `COLOR_COUNT - 1` that read
is the only access outside the array; otherwise the loop goes on resetting and
reading: with the `char`s 9, 100, 3 after the array it writes indices 4 and 5
and reads up to index 6.  On every other valid code all accesses are inside the
array and the memory after it is left alone. -/
theorem nextCode_reads_past_end :
    Code.valid { colors := ![7, 7, 7, 7] } ∧
    (∀ past : List Int, CODE_LENGTH ∈ nextCodeAccesses { colors := ![7, 7, 7, 7] } past) ∧
    (∀ past : List Int,
      ¬ (∀ i ∈ nextCodeAccesses { colors := ![7, 7, 7, 7] } past, i < CODE_LENGTH)) ∧
    (∀ past : List Int,
      (nextCode { colors := ![7, 7, 7, 7] } past).ret = false ∧
      CODE_LENGTH ≤ (nextCode { colors := ![7, 7, 7, 7] } past).i) ∧
    nextCodeAccesses { colors := ![7, 7, 7, 7] } [3] = [0, 0, 1, 1, 2, 2, 3, 3, 4] ∧
    (nextCode { colors := ![7, 7, 7, 7] } [3]).i = CODE_LENGTH ∧
    nextCodeAccesses { colors := ![7, 7, 7, 7] } [9, 100, 3] =
      [0, 0, 1, 1, 2, 2, 3, 3, 4, 4, 5, 5, 6] ∧
    nextCode { colors := ![7, 7, 7, 7] } [9, 100, 3] =
      ⟨false, { colors := ![0, 0, 0, 0] }, 6, [0, 0, 3], false⟩ ∧
    nextCodeAccesses { colors := ![7, 7, 7, 7] } [] = [0, 0, 1, 1, 2, 2, 3, 3, 4] ∧
    (nextCode { colors := ![7, 7, 7, 7] } []).fault = true ∧
    ∀ c : Code, c.valid → (∃ i : Fin CODE_LENGTH, c.colors i ≠ COLOR_COUNT - 1) →
      ∀ past : List Int,
        (∀ i ∈ nextCodeAccesses c past, i < CODE_LENGTH) ∧ (nextCode c past).past = past := by
  have hv : Code.valid { colors := ![7, 7, 7, 7] } := by decide
  have ho : ord { colors := ![7, 7, 7, 7] } = 4095 := by rw [ord_eq]; rfl
  have hmem : ∀ past : List Int,
      CODE_LENGTH ∈ nextCodeAccesses { colors := ![7, 7, 7, 7] } past := fun past =>
    (nextCode_ret_false_accesses _ hv past (nextCode_of_last _ hv ho past).1).1
  refine ⟨hv, hmem, ?_, fun past => nextCode_of_last _ hv ho past, ?_, ?_, ?_, ?_, ?_, ?_, ?_⟩
  · intro past hall
    exact absurd (hall _ (hmem past)) (Nat.lt_irrefl _)
  · rw [nextCodeAccesses_hhhh]; decide
  · rw [nextCode_hhhh]; decide
  · rw [nextCodeAccesses_hhhh]; decide
  · rw [nextCode_hhhh]; decide
  · rw [nextCodeAccesses_hhhh]; decide
  · rw [nextCode_hhhh]; decide
  · intro c hc hne past
    obtain ⟨k, hk⟩ := hne
    have h8 : c.colors k < 8 := hc k
    have h7 : c.colors k ≠ 7 := hk
    refine ⟨fun i hi => nextCodeAccesses_in_range c past ⟨k, by omega⟩ i hi, ?_⟩
    have hord : ord c < 4095 := by
      have hlt := ord_lt c hc
      by_contra hge
      have := (ord_last_iff c hc).mp (by omega) k
      exact hk this
    exact (nextCode_of_lt c hc hord past).2.2.2.2.1

/-- C18: for a valid secret and every sequence of session commands from the
empty history, each a valid guess (pushed with `calcResponse(guess, secret)`
unless its `fit` is `CODE_LENGTH`) or a pop, the secret fits the resulting
history; so some valid code fits it, the candidate mask has an entry set, and no
recorded turn has `fit == CODE_LENGTH`. -/
theorem session_secret_consistent (secret : Code) (hs : secret.valid)
    (commands : List Command) (_hg : ∀ g : Code, Command.guess g ∈ commands → g.valid) :
    codeFitsTurnStack secret (session secret commands) = true ∧
    (∃ c : Code, c.valid ∧ codeFitsTurnStack c (session secret commands) = true) ∧
    0 < maskTrueCount (candidateMask (session secret commands)) ∧
    ∀ t ∈ session secret commands, t.response.fit ≠ CODE_LENGTH := by
  have hinv := session_invariant secret commands
  refine ⟨hinv.1, ⟨secret, hs, hinv.1⟩, ?_, hinv.2⟩
  rw [maskTrueCount_pos_iff]
  have hk : ord secret < getCodeCount := by rw [getCodeCount_eq]; exact ord_lt secret hs
  refine ⟨ord secret, hk, ?_⟩
  rw [candidateMask_getD_ne_zero _ _ hk, nthCode_ord secret hs]
  exact hinv.1

/-- C18, at the secret "abcd" and the commands: guess "aabb", guess "abcd" (a
win, not recorded), `:pop`. -/
theorem session_secret_consistent_witness :
    (Code.valid { colors := ![0, 1, 2, 3] } ∧
      ∀ g : Code,
        Command.guess g ∈
          [Command.guess { colors := ![0, 0, 1, 1] }, Command.guess { colors := ![0, 1, 2, 3] },
            Command.pop] → g.valid) ∧
    codeFitsTurnStack { colors := ![0, 1, 2, 3] }
      (session { colors := ![0, 1, 2, 3] }
        [Command.guess { colors := ![0, 0, 1, 1] }, Command.guess { colors := ![0, 1, 2, 3] },
          Command.pop]) = true :=
  ⟨⟨by decide, fun g hg => by
      simp only [List.mem_cons, Command.guess.injEq, List.mem_singleton, reduceCtorEq,
        or_false, List.not_mem_nil] at hg
      rcases hg with rfl | rfl <;> decide⟩,
    (session_secret_consistent { colors := ![0, 1, 2, 3] } (by decide)
      [Command.guess { colors := ![0, 0, 1, 1] }, Command.guess { colors := ![0, 1, 2, 3] },
        Command.pop]
      (fun g hg => by
        simp only [List.mem_cons, Command.guess.injEq, List.mem_singleton, reduceCtorEq,
          or_false, List.not_mem_nil] at hg
        rcases hg with rfl | rfl <;> decide)).1⟩

/-- C19, on the code: the arithmetic of the search step is as C19 says, for
every score within the bounds C19 gives (at most 4096, and at least 1 where the
mask entry is set): neither `eval *= 2` nor
`eval -= possibleCodeBools[codeIndex]` wraps, and the key is below `UINT_MAX`.
But the source determines no score `evalGuess(g, H, m)` to be bounded.  On the
candidate mask of a history, as on any mask, `evalGuess` has no defined result;
on the empty history, whose mask has every entry set, the guess "aabb" is lost
with `result = 0` in the first call of `countPossibleCodes`, whose last call of
`nextCode` reads outside the array.  So the body of the search loop of
`calcBestGuess` does not get as far as that arithmetic by defined behaviour: it
has no defined result, in whatever state and on whatever code it is run. -/
theorem calcBestGuessStep_no_key :
    (∀ (H : List Turn) (g : Code) (past : List Int),
      ∃ st, evalGuess g H (candidateMask H) past = Outcome.outOfRange st) ∧
    0 < maskTrueCount (candidateMask []) ∧
    (∀ past : List Int,
      evalGuess { colors := ![0, 0, 1, 1] } [] (candidateMask []) past =
        Outcome.outOfRange (0, 0)) ∧
    (∀ H : List Turn, maskTrueCount (candidateMask H) ≤ 4096) ∧
    (∀ (H : List Turn) (mask : List Nat) (past : List Int) (st : Nat × Code × Nat) (code : Code),
      calcBestGuessStep H mask past st code = none) ∧
    ∀ (mask : List Nat) (st : Nat × Code × Nat) (code : Code) (eval : Nat),
      eval ≤ 4096 → mask.getD st.2.2 0 ≤ 1 → (mask.getD st.2.2 0 ≠ 0 → 1 ≤ eval) →
      eval * 2 < UINT_RANGE ∧ mask.getD st.2.2 0 ≤ eval * 2 ∧
      eval * 2 - mask.getD st.2.2 0 < UINT_MAX ∧
      calcBestGuessUpdate mask st code eval =
        if eval * 2 - mask.getD st.2.2 0 < st.1
          then (eval * 2 - mask.getD st.2.2 0, code, st.2.2 + 1)
          else (st.1, st.2.1, st.2.2 + 1) := by
  refine ⟨fun H g past => evalGuess_lost g H _ past, maskTrueCount_nil_pos, ?_,
    fun H => getCodeCount_eq ▸ maskTrueCount_le _, calcBestGuessStep_eq_none,
    calcBestGuessUpdate_no_wrap⟩
  intro past
  apply evalGuess_of_first_set
  exact (candidateMask_getD_ne_zero [] 0 getCodeCount_pos).mpr rfl

/-- C20, on the code: the session with the secret "aaaa" and the guesses
"baaa", "abaa", "aaba", "aaab" leaves the history `singleCandidateHistory`,
which "aaaa" fits and no other code does; its candidate mask has one entry set.
On that history the source does not determine that `calcBestGuess` returns
"aaaa", nor any other code: the call of `nextCode` that should end its first
loop reads outside the array.  The search step itself is as C20 says: run over
the codes with the score 1 for every guess, it keeps "aaaa", the only code with
the key 1. -/
theorem calcBestGuess_single_candidate :
    session { colors := ![0, 0, 0, 0] } singleCandidateCommands = singleCandidateHistory ∧
    Code.valid { colors := ![0, 0, 0, 0] } ∧
    codeFitsTurnStack { colors := ![0, 0, 0, 0] } singleCandidateHistory = true ∧
    (∀ d : Code, codeFitsTurnStack d singleCandidateHistory = true →
      d = { colors := ![0, 0, 0, 0] }) ∧
    maskTrueCount (candidateMask singleCandidateHistory) = 1 ∧
    (∀ (junk : Nat → Nat) (past : List Int),
      calcBestGuess singleCandidateHistory junk past =
        Outcome.outOfRange (candidateMask singleCandidateHistory, getCodeCount)) ∧
    (∀ (junk : Nat → Nat) (past : List Int),
      calcBestGuess singleCandidateHistory junk past ≠
        Outcome.returned { colors := ![0, 0, 0, 0] }) ∧
    ∀ c0 : Code,
      (List.range getCodeCount).foldl
          (fun st j =>
            calcBestGuessUpdate (candidateMask singleCandidateHistory) st (nthCode j) 1)
          (UINT_MAX, c0, 0) = (1, { colors := ![0, 0, 0, 0] }, getCodeCount) := by
  refine ⟨session_singleCandidate, by decide, singleCandidateHistory_fits,
    singleCandidateHistory_unique, maskTrueCount_singleCandidate,
    calcBestGuess_eq singleCandidateHistory, ?_,
    searchScan_of_unique singleCandidateHistory _ (by decide) singleCandidateHistory_fits
      (fun d _ h => singleCandidateHistory_unique d h)⟩
  intro junk past h
  rw [calcBestGuess_eq] at h
  exact Outcome.noConfusion h


end Solvemind
